/-
Verification development for the python-defrag repository (a FAT32 image
analyzer).  The Python sources under src/ are shallowly embedded below:
pure functions become Lean functions over Nat / Int / Qq and lists, byte
buffers become lists of Nat, Python exceptions become Except values, and
the (possibly non-terminating) recursive directory walk is modelled with
an explicit fuel parameter where running out of fuel yields none.

Part 1 contains the definitions (the embedding), part 2 the theorems.
-/
import Mathlib

namespace PyDefrag

/-! ## Part 1: the embedding -/

/-! ### Extent encoder, src/analysis/analyser.py, to_extents (lines 22-35)

The Python loop iterates over zip(chain, chain[1:]) carrying the current
run (start, length); the embedding carries the previous element
explicitly.  -/

/-- Loop body of to_extents: start and length describe the run being
grown, prev is the chain element of the previous iteration. -/
def toExtentsGo (start len prev : Nat) : List Nat → List (Nat × Nat)
  | [] => [(start, len)]
  | cur :: rest =>
    if cur = prev + 1 then
      toExtentsGo start (len + 1) cur rest
    else
      (start, len) :: toExtentsGo cur 1 cur rest

/-- to_extents from src/analysis/analyser.py: run-length encodes a
cluster chain into (start, length) extents. -/
def to_extents : List Nat → List (Nat × Nat)
  | [] => []
  | c :: rest => toExtentsGo c 1 c rest

/-- Expansion of extents back into a chain: each (start, length) becomes
start, start+1, ..., start+length-1, concatenated in order. -/
def expandExtents (exts : List (Nat × Nat)) : List Nat :=
  (exts.map fun p => List.range' p.1 p.2).flatten

/-- Sum of the extent lengths. -/
def extentLengthSum (exts : List (Nat × Nat)) : Nat :=
  (exts.map fun p => p.2).sum

/-! ### Boot sector, src/parser/fat32_parser.py (lines 6-71)

An image is a list of byte values.  struct.unpack little-endian reads
become explicit base-256 sums; Python exceptions become an Except value:
indexError models the IndexError raised when indexing past the end of
the data read, invalidSignature models the
ValueError("Invalid boot sector signature").  -/

/-- Byte at offset o (0 when out of range; callers guard the range). -/
def u8at (l : List Nat) (o : Nat) : Nat := l.getD o 0

/-- struct.unpack of a little-endian u16 at offset o. -/
def u16at (l : List Nat) (o : Nat) : Nat :=
  l.getD o 0 + 256 * l.getD (o + 1) 0

/-- struct.unpack of a little-endian u32 at offset o. -/
def u32at (l : List Nat) (o : Nat) : Nat :=
  l.getD o 0 + 256 * l.getD (o + 1) 0 + 65536 * l.getD (o + 2) 0 +
    16777216 * l.getD (o + 3) 0

/-- The BootSector dataclass of src/parser/fat32_parser.py. -/
structure BootSector where
  bytes_per_sector : Nat
  sectors_per_cluster : Nat
  reserved_sectors : Nat
  num_fats : Nat
  total_sectors : Nat
  sectors_per_fat : Nat
  root_dir_cluster : Nat
  signature : Nat
deriving DecidableEq, Repr

/-- Errors surfaced by FAT32Parser.parse_boot_sector. -/
inductive BootError where
  | indexError
  | invalidSignature
deriving DecidableEq, Repr

/-- FAT32Parser.parse_boot_sector: reads boot_data = the first 512
bytes, checks boot_data(510) = 0x55 and boot_data(511) = 0xAA exactly in
Python evaluation order (an out-of-range index raises IndexError before
the comparison happens), then unpacks the eight fields.  No further
validation is performed by the source. -/
def parse_boot_sector (img : List Nat) : Except BootError BootSector :=
  if (img.take 512).length < 511 then .error .indexError
  else if (img.take 512).getD 510 0 ≠ 0x55 then .error .invalidSignature
  else if (img.take 512).length < 512 then .error .indexError
  else if (img.take 512).getD 511 0 ≠ 0xAA then .error .invalidSignature
  else .ok {
    bytes_per_sector := u16at (img.take 512) 11
    sectors_per_cluster := u8at (img.take 512) 13
    reserved_sectors := u16at (img.take 512) 14
    num_fats := u8at (img.take 512) 16
    total_sectors := u32at (img.take 512) 32
    sectors_per_fat := u32at (img.take 512) 36
    root_dir_cluster := u32at (img.take 512) 44
    signature := u16at (img.take 512) 510 }

/-- FAT32Analyzer.cluster_size from src/analysis/analyser.py. -/
def cluster_size (bs : BootSector) : Nat :=
  bs.sectors_per_cluster * bs.bytes_per_sector

/-- FAT32Analyzer.total_clusters from src/analysis/analyser.py.  Python
integers are signed and the // is floor division, hence Int and
Int.fdiv.  (For sectors_per_cluster = 0 Python raises
ZeroDivisionError; theorems about total_clusters therefore carry the
hypothesis 0 < sectors_per_cluster.) -/
def total_clusters (bs : BootSector) : Int :=
  Int.fdiv ((bs.total_sectors : Int) -
      ((bs.reserved_sectors : Int) + (bs.num_fats : Int) * (bs.sectors_per_fat : Int)))
    (bs.sectors_per_cluster : Int)

/-- A 512-byte image whose only nonzero bytes are the 0x55AA signature:
every geometry field decodes to 0, violating all the documented
invariants, yet parse_boot_sector accepts it. -/
def c5img : List Nat := List.replicate 510 0 ++ [0x55, 0xAA]

/-! ### FAT table and chain follower

read_fat_entry is embedded from src/parser/fat32_parser.py (lines
73-76 and 101-111).  The random-access byte source behind the file
handle is a function from absolute offset to byte value.

FAT32Parser.get_cluster_chain is called by FAT32Analyzer.get_chain but
its definition is not part of src/; it is modelled from the spec,
sections 4.2 (FatTable) and 4.3 (ChainFollower). -/

/-- Byte read from the random-access byte source (a file yields values
below 256). -/
def byteAt (img : Nat → Nat) (o : Nat) : Nat := img o % 256

/-- FAT32Parser.get_fat_offset. -/
def get_fat_offset (bs : BootSector) : Nat :=
  bs.reserved_sectors * bs.bytes_per_sector

/-- FAT32Parser.read_fat_entry: little-endian u32 at
fat_offset + 4 * cluster, masked to the low 28 bits. -/
def read_fat_entry (img : Nat → Nat) (bs : BootSector) (cluster : Nat) : Nat :=
  (byteAt img (get_fat_offset bs + 4 * cluster) +
    256 * byteAt img (get_fat_offset bs + 4 * cluster + 1) +
    65536 * byteAt img (get_fat_offset bs + 4 * cluster + 2) +
    16777216 * byteAt img (get_fat_offset bs + 4 * cluster + 3)) &&& 0x0FFFFFFF

/-- Modelled from the spec: the ClusterLink classification of section
4.2 (FatTable), which is not part of src/.  The spec leaves the masked
values 0x0FFFFFF0 to 0x0FFFFFF6 unclassified; they get their own
constructor here, and like every non-Next link they terminate a chain. -/
inductive ClusterLink where
  | free
  | reserved
  | next (v : Nat)
  | bad
  | endOfChain
  | unclassified
deriving DecidableEq, Repr

/-- Modelled from the spec: section 4.2's classification of a masked
FAT entry value. -/
def classify (v : Nat) : ClusterLink :=
  if v = 0 then .free
  else if v = 1 then .reserved
  else if v ≤ 0x0FFFFFEF then .next v
  else if v = 0x0FFFFFF7 then .bad
  else if 0x0FFFFFF8 ≤ v ∧ v ≤ 0x0FFFFFFF then .endOfChain
  else .unclassified

/-- Non-fatal chain-following warnings of spec sections 4.3 and 7. -/
inductive ChainWarning where
  | cyclicChain
  | outOfRangeLink
deriving DecidableEq, Repr

/-- Fatal chain error of spec sections 4.3 and 7. -/
inductive ChainError where
  | invalidClusterNumber
deriving DecidableEq, Repr

/-- Modelled from the spec: the loop of section 4.3 (ChainFollower),
which is not part of src/.  ch is the chain built so far, cur its last
element.  Follow FatTable.next_cluster of cur: a non-Next link
terminates the chain; a Next link v already in the chain stops with the
CyclicChain warning, truncated at the duplicate; a Next link beyond
total_clusters + 1 stops with the OutOfRangeLink warning; otherwise v
is appended and following continues.  Terminates because every appended
cluster is new and at most total_clusters + 1. -/
def chainGo (img : Nat → Nat) (bs : BootSector) (ch : List Nat) (cur : Nat) :
    List Nat × Option ChainWarning :=
  match classify (read_fat_entry img bs cur) with
  | .next v =>
    if hv : v ∈ ch then (ch, some .cyclicChain)
    else if hT : total_clusters bs + 1 < (v : Int) then
      (ch, some .outOfRangeLink)
    else chainGo img bs (ch ++ [v]) v
  | _ => (ch, none)
termination_by
  ((total_clusters bs).toNat + 2) -
    (ch.toFinset ∩ Finset.range ((total_clusters bs).toNat + 2)).card
decreasing_by
  have hvR : v ∈ Finset.range ((total_clusters bs).toNat + 2) := by
    rw [Finset.mem_range]
    have := Int.self_le_toNat (total_clusters bs)
    omega
  have hX : (ch ++ [v]).toFinset ∩
      Finset.range ((total_clusters bs).toNat + 2) =
      insert v (ch.toFinset ∩
        Finset.range ((total_clusters bs).toNat + 2)) := by
    rw [List.toFinset_append, List.toFinset_cons, List.toFinset_nil,
      insert_emptyc_eq, Finset.union_comm, Finset.insert_eq,
      Finset.union_inter_distrib_right, Finset.singleton_inter_of_mem hvR]
  have hvX : v ∉ ch.toFinset ∩
      Finset.range ((total_clusters bs).toNat + 2) := by
    intro hmem
    exact hv (List.mem_toFinset.mp (Finset.mem_of_mem_inter_left hmem))
  have hsub : insert v (ch.toFinset ∩
      Finset.range ((total_clusters bs).toNat + 2)) ⊆
      Finset.range ((total_clusters bs).toNat + 2) := by
    intro x hx
    rcases Finset.mem_insert.mp hx with h | h
    · exact h ▸ hvR
    · exact Finset.mem_of_mem_inter_right h
  have hcard := Finset.card_le_card hsub
  rw [Finset.card_insert_of_not_mem hvX] at hcard
  simp only [Finset.card_range] at hcard
  rw [hX, Finset.card_insert_of_not_mem hvX]
  omega

/-- Modelled from the spec: FAT32Parser.get_cluster_chain, absent from
src/ (only its caller FAT32Analyzer.get_chain is present), following
spec section 4.3: a start cluster below 2 fails with
InvalidClusterNumber, otherwise the chain starts as the singleton
start and is extended by chainGo. -/
def get_cluster_chain (img : Nat → Nat) (bs : BootSector) (start : Nat) :
    Except ChainError (List Nat × Option ChainWarning) :=
  if start < 2 then .error .invalidClusterNumber
  else .ok (chainGo img bs [start] start)

/-- All-zero byte source: every FAT entry reads as 0 (Free). -/
def c3img : Nat → Nat := fun _ => 0

/-- An arbitrary concrete geometry for chain-follower instantiation. -/
def c3bs : BootSector := ⟨0, 0, 0, 0, 0, 0, 0, 0⟩

/-! ### Directory entries, src/parser/directory_entry.py

Byte buffers are lists of Nat; Python str values are Lean Strings.
bytes.decode("ascii", errors="replace") maps each byte below 128 to the
corresponding character and every other byte to U+FFFD; str.rstrip()
with no argument removes trailing Python whitespace characters. -/

/-- A datetime.datetime value (the constructor validates its
components; validation is modelled in parse_fat_time_date). -/
structure PyDateTime where
  year : Nat
  month : Nat
  day : Nat
  hour : Nat
  minute : Nat
  second : Nat
  microsecond : Nat
deriving DecidableEq, Repr

/-- Gregorian leap-year rule used by datetime. -/
def isLeapYear (y : Nat) : Bool :=
  decide (y % 4 = 0 ∧ (y % 100 ≠ 0 ∨ y % 400 = 0))

/-- Number of days of a month as validated by datetime. -/
def daysInMonth (y m : Nat) : Nat :=
  if m = 2 then (if isLeapYear y then 29 else 28)
  else if m = 4 ∨ m = 6 ∨ m = 9 ∨ m = 11 then 30
  else 31

/-- DirectoryParser._parse_fat_time_date: unpacks the packed FAT time
and date fields; datetime raising ValueError on an out-of-range
component is modelled by the validity test, the except branch returning
None by the none result. -/
def parse_fat_time_date (time date tenths : Nat) : Option PyDateTime :=
  let second0 := (time &&& 0x1F) * 2
  let minute := (time >>> 5) &&& 0x3F
  let hour := (time >>> 11) &&& 0x1F
  let day := date &&& 0x1F
  let month := (date >>> 5) &&& 0x0F
  let year := ((date >>> 9) &&& 0x7F) + 1980
  let second := if 0 < tenths then second0 + tenths / 100 else second0
  let microsecond := if 0 < tenths then (tenths % 100) * 10000 else 0
  if 1 ≤ month ∧ month ≤ 12 ∧ 1 ≤ day ∧ day ≤ daysInMonth year month ∧
      hour ≤ 23 ∧ minute ≤ 59 ∧ second ≤ 59 ∧ microsecond ≤ 999999 then
    some ⟨year, month, day, hour, minute, second, microsecond⟩
  else none

/-- One byte decoded by bytes.decode("ascii", errors="replace"). -/
def pyChr (b : Nat) : Char :=
  if b < 128 then Char.ofNat b else Char.ofNat 0xFFFD

/-- The characters stripped by Python str.strip() and str.rstrip()
with no argument (str.isspace code points). -/
def isPySpace (c : Char) : Bool :=
  decide ((9 ≤ c.toNat ∧ c.toNat ≤ 13) ∨ (28 ≤ c.toNat ∧ c.toNat ≤ 32) ∨
    c.toNat = 133 ∨ c.toNat = 160 ∨ c.toNat = 5760 ∨
    (8192 ≤ c.toNat ∧ c.toNat ≤ 8202) ∨ c.toNat = 8232 ∨
    c.toNat = 8233 ∨ c.toNat = 8239 ∨ c.toNat = 8287 ∨ c.toNat = 12288)

/-- str.rstrip() on a character list. -/
def rstripChars (cs : List Char) : List Char :=
  (cs.reverse.dropWhile isPySpace).reverse

/-- bytes.decode("ascii", errors="replace") followed by .rstrip(), as
used for the name and extension fields. -/
def decodeAsciiRstrip (bytes : List Nat) : String :=
  ⟨rstripChars (bytes.map pyChr)⟩

/-- The DirectoryEntry dataclass of src/parser/directory_entry.py. -/
structure DirectoryEntry where
  name : String
  extension : String
  attributes : Nat
  create_time : Option PyDateTime
  modify_time : Option PyDateTime
  access_time : Option PyDateTime
  first_cluster : Nat
  file_size : Nat
  is_directory : Bool
  is_volume_label : Bool
  is_deleted : Bool := false
deriving DecidableEq, Repr

/-- The full_name property: name plus "." plus extension when the
extension is non-empty (Python truthiness of the str). -/
def full_name (e : DirectoryEntry) : String :=
  if e.extension ≠ "" then e.name ++ "." ++ e.extension else e.name

/-- The body of the try block of
DirectoryParser.parse_directory_entries (lines 70-111) applied to one
32-byte slot: decodes the short-name entry.  In the embedding the
except branch is unreachable: decode with errors="replace" cannot
raise, the unpacked slices of a 32-byte slot are full width, and the
datetime ValueError is already caught inside _parse_fat_time_date. -/
def decodeShortEntry (slot : List Nat) : DirectoryEntry :=
  { name := decodeAsciiRstrip (slot.take 8)
    extension := decodeAsciiRstrip ((slot.drop 8).take 3)
    attributes := u8at slot 11
    create_time :=
      parse_fat_time_date (u16at slot 14) (u16at slot 16) (u8at slot 13)
    modify_time := parse_fat_time_date (u16at slot 22) (u16at slot 24) 0
    access_time := parse_fat_time_date 0 (u16at slot 18) 0
    first_cluster := (u16at slot 20) <<< 16 ||| u16at slot 26
    file_size := u32at slot 28
    is_directory := u8at slot 11 &&& 0x10 ≠ 0
    is_volume_label := u8at slot 11 &&& 0x08 ≠ 0
    is_deleted := false }

/-- DirectoryParser.parse_directory_entries: the while loop walks the
buffer in 32-byte slots (the loop guard pos + 32 <= len is the
32-element pattern; fewer than 32 remaining bytes end the loop), stops
at a slot whose first byte is 0x00, skips deleted (0xE5) and
long-filename (attribute byte 0x0F) slots, and decodes every other
slot. -/
def parse_directory_entries : List Nat → List DirectoryEntry
  | b0 :: b1 :: b2 :: b3 :: b4 :: b5 :: b6 :: b7 :: b8 :: b9 :: b10 ::
    b11 :: b12 :: b13 :: b14 :: b15 :: b16 :: b17 :: b18 :: b19 :: b20 ::
    b21 :: b22 :: b23 :: b24 :: b25 :: b26 :: b27 :: b28 :: b29 :: b30 ::
    b31 :: rest =>
    if b0 = 0x00 then []
    else if b0 = 0xE5 then parse_directory_entries rest
    else if b11 = 0x0F then parse_directory_entries rest
    else
      decodeShortEntry [b0, b1, b2, b3, b4, b5, b6, b7, b8, b9, b10, b11,
        b12, b13, b14, b15, b16, b17, b18, b19, b20, b21, b22, b23, b24,
        b25, b26, b27, b28, b29, b30, b31] :: parse_directory_entries rest
  | _ => []

/-- The 32-byte short-name slot of spec scenario 5: name bytes
0x05 'A' 'A' 'A' and four trailing spaces, a blank extension, the
archive attribute, all other bytes zero. -/
def c6slot : List Nat :=
  [0x05, 0x41, 0x41, 0x41, 0x20, 0x20, 0x20, 0x20, 0x20, 0x20, 0x20,
   0x20, 0, 0, 0, 0, 0, 0, 0, 0, 0, 0, 0, 0, 0, 0, 0, 0, 0, 0, 0, 0]

/-- A directory buffer of the exact shape quantified by C7 (one deleted
slot, three slots with attribute byte 0x0F, a README TXT short-name
slot, a terminator slot) in which the first long-filename slot's first
byte happens to be 0x00: the decoder stops there and emits nothing. -/
def c7buf : List Nat :=
  (0xE5 :: List.replicate 31 0) ++
  (0x00 :: List.replicate 10 0 ++ 0x0F :: List.replicate 20 0) ++
  (0x01 :: List.replicate 10 0 ++ 0x0F :: List.replicate 20 0) ++
  (0x01 :: List.replicate 10 0 ++ 0x0F :: List.replicate 20 0) ++
  ([0x52, 0x45, 0x41, 0x44, 0x4D, 0x45, 0x20, 0x20, 0x54, 0x58, 0x54,
    0x20] ++ List.replicate 20 0) ++
  List.replicate 32 0

/-- Deleted slot for the C7 witness buffer. -/
def c7s1 : List Nat := 0xE5 :: List.replicate 31 0

/-- Long-filename slot (sequence byte 0x01, attribute 0x0F) for the C7
witness buffer. -/
def c7lfn : List Nat :=
  0x01 :: (List.replicate 10 0 ++ 0x0F :: List.replicate 20 0)

/-- The README TXT short-name slot (attribute 0x20) for the C7 witness
buffer. -/
def c7s5 : List Nat :=
  [0x52, 0x45, 0x41, 0x44, 0x4D, 0x45, 0x20, 0x20, 0x54, 0x58, 0x54,
   0x20] ++ List.replicate 20 0

/-- All-zero terminator slot for the C7 witness buffer. -/
def c7s6 : List Nat := List.replicate 32 0

/-! ### Analyzer records, bitmap, free runs and statistics,
src/analysis/analyser.py (lines 11-19 and 119-165) -/

/-- The FileRecord dataclass. -/
structure FileRecord where
  path : String
  size_bytes : Nat
  first_cluster : Nat
  clusters : List Nat
  extents : List (Nat × Nat)
  fragments : Nat
  is_directory : Bool
deriving DecidableEq, Repr

/-- FAT32Analyzer.build_allocation_bitmap: a list of total_clusters
zero bits (Python list multiplication by a non-positive count gives the
empty list, hence toNat); for every cluster c of every record, index
c - 2 is set to 1 when 0 <= c - 2 < total_clusters. -/
def build_allocation_bitmap (bs : BootSector) (records : List FileRecord) :
    List Nat :=
  records.foldl
    (fun bm r =>
      r.clusters.foldl
        (fun bm c =>
          if 2 ≤ c ∧ c - 2 < (total_clusters bs).toNat then
            bm.set (c - 2) 1
          else bm)
        bm)
    (List.replicate (total_clusters bs).toNat 0)

/-- Length of the zero prefix: the distance the inner while loop of
FAT32Analyzer.free_extents advances. -/
def lzCount : List Nat → Nat
  | [] => 0
  | b :: r => if b = 0 then lzCount r + 1 else 0

/-- The loop of FAT32Analyzer.free_extents over the suffix of the
bitmap starting at index i: on a zero bit the inner while loop scans to
the end j of the zero run, (i + 2, j - i) is emitted and the outer scan
resumes at j; on a nonzero bit the outer scan advances by one. -/
def feGo : List Nat → Nat → List (Nat × Nat)
  | [], _ => []
  | b :: r, i =>
    if hb : b = 0 then
      (i + 2, lzCount (b :: r)) ::
        feGo (List.drop (lzCount (b :: r)) (b :: r)) (i + lzCount (b :: r))
    else feGo r (i + 1)
termination_by bm _ => bm.length
decreasing_by
  · have hlz : lzCount (b :: r) = lzCount r + 1 := by simp [lzCount, hb]
    simp only [List.length_drop, hlz, List.length_cons]
    omega
  · simp [List.length_cons]

/-- FAT32Analyzer.free_extents. -/
def free_extents (bm : List Nat) : List (Nat × Nat) := feGo bm 0

/-- The zero region of positions a, ..., a + l - 1 is a maximal run of
zero bits of the bitmap: l is positive, the bitmap splits as a prefix
of length a, l zero bits, and a suffix, and the neighbouring bits on
both sides (the last bit of the prefix and the first bit of the
suffix), when they exist, are nonzero. -/
def isMaxZeroRun (bm : List Nat) (a l : Nat) : Prop :=
  0 < l ∧ ∃ pre post, bm = pre ++ (List.replicate l 0 ++ post) ∧
    pre.length = a ∧ (∀ x, pre.getLast? = some x → x ≠ 0) ∧
    (∀ x, post.head? = some x → x ≠ 0)

/-- The statistics dictionary produced by FAT32Analyzer.stats.  The
float-valued entries are modelled in the rationals (the Python values
are these rationals rounded to IEEE-754 doubles). -/
structure Stats where
  files_total : Nat
  files_fragmented : Nat
  files_fragmented_pct : Rat
  avg_fragments_per_file : Rat
  max_fragments : Nat
  total_size_bytes : Nat
  cluster_size_bytes : Nat
  stat_total_clusters : Int
  free_runs_count : Nat
  largest_free_run_clusters : Nat
  largest_free_run_bytes : Nat
  volume_fragmentation_index : Rat
deriving DecidableEq, Repr

/-- FAT32Analyzer.stats (lines 143-165).  Note the source computes
sum(r.fragments - 1 for r in files) with no clamping of negative
terms. -/
def stats (bs : BootSector) (records : List FileRecord)
    (free_runs : List (Nat × Nat)) : Stats :=
  let files := records.filter (fun r => !r.is_directory)
  let fragmented := (files.filter (fun r => 1 < r.fragments)).length
  { files_total := files.length
    files_fragmented := fragmented
    files_fragmented_pct :=
      if files.length ≠ 0 then
        (fragmented : Rat) * 100 / (files.length : Rat)
      else 0
    avg_fragments_per_file :=
      if files.length ≠ 0 then
        ((files.map (fun r => (r.fragments : Rat))).sum) / (files.length : Rat)
      else 0
    max_fragments := (files.map (fun r => r.fragments)).foldr max 0
    total_size_bytes := (files.map (fun r => r.size_bytes)).sum
    cluster_size_bytes := cluster_size bs
    stat_total_clusters := total_clusters bs
    free_runs_count := free_runs.length
    largest_free_run_clusters := (free_runs.map (fun p => p.2)).foldr max 0
    largest_free_run_bytes :=
      (free_runs.map (fun p => p.2)).foldr max 0 * cluster_size bs
    volume_fragmentation_index :=
      (((files.map (fun r => (r.fragments : Int) - 1)).sum : Rat)) /
        ((max 1 (files.map (fun r => r.fragments)).sum : Nat) : Rat) }

/-- A FileRecord of an empty file (first_cluster 0, no clusters, no
extents, fragments 0), as the walker emits for spec scenario 3. -/
def c1rec : FileRecord := ⟨"/EMPTY", 0, 0, [], [], 0, false⟩

/-- Arbitrary geometry for evaluating stats. -/
def c1bs : BootSector := ⟨0, 0, 0, 0, 0, 0, 0, 0⟩

/-- Geometry with total_clusters = 10 (spec scenario 6). -/
def c9bs : BootSector := ⟨512, 1, 0, 0, 10, 0, 2, 0xAA55⟩

/-- A record occupying clusters 2, 3 and 7 (spec scenario 6). -/
def c9rec : FileRecord :=
  ⟨"/A", 1536, 2, [2, 3, 7], [(2, 2), (7, 1)], 2, false⟩


/-! ### The walker, src/analysis/analyser.py (lines 74-117)

_walk_dir touches the image only through
parse_directory_by_cluster (the directory entries decoded from the
concatenated chain bytes of a cluster) and get_chain; both are
abstracted as functions of the environment (their caches are pure
memoization with no visible effect).  The Python recursion has no
termination guard, so the embedding carries fuel: none models a
non-terminating run. -/

/-- The image as _walk_dir sees it: the decoded directory entries of a
starting cluster, and the cluster chain of a starting cluster. -/
structure WalkEnv where
  entriesAt : Nat → List DirectoryEntry
  chainAt : Nat → List Nat

/-- str.strip() (both ends). -/
def pyStrip (s : String) : String :=
  ⟨rstripChars (s.data.dropWhile isPySpace)⟩

/-- str.rstrip("/"). -/
def pyRstripSlash (s : String) : String :=
  ⟨(s.data.reverse.dropWhile (fun c => c == '/')).reverse⟩

/-- The string ends with the character '/'. -/
def endsSlash (s : String) : Prop := s.data.getLast? = some '/'

instance (s : String) : Decidable (endsSlash s) := by
  unfold endsSlash
  infer_instance

/-- The conditions under which the loop of _walk_dir skips an entry:
volume labels, entries with an empty stripped name, and "." and "..". -/
def walkSkips (e : DirectoryEntry) : Bool :=
  e.is_volume_label || pyStrip e.name == "" || pyStrip e.name == "." ||
    pyStrip e.name == ".."

/-- The name component appended to the prefix:
e.full_name.strip() or e.name.strip(). -/
def entryStem (e : DirectoryEntry) : String :=
  if pyStrip (full_name e) = "" then pyStrip e.name
  else pyStrip (full_name e)

/-- The FileRecord built in the entry loop of _walk_dir. -/
def entryRec (env : WalkEnv) (pfx : String) (e : DirectoryEntry) :
    FileRecord :=
  { path := pfx ++ entryStem e
    size_bytes := e.file_size
    first_cluster := e.first_cluster
    clusters := if 2 ≤ e.first_cluster then env.chainAt e.first_cluster
      else []
    extents := to_extents (if 2 ≤ e.first_cluster then
      env.chainAt e.first_cluster else [])
    fragments := (to_extents (if 2 ≤ e.first_cluster then
      env.chainAt e.first_cluster else [])).length
    is_directory := e.is_directory }

/-- FAT32Analyzer._record_for_dir.  Python's path or "/" maps the empty
string to "/". -/
def recordForDir (env : WalkEnv) (path : String) (first_cluster : Nat) :
    FileRecord :=
  { path := if path = "" then "/" else path
    size_bytes := 0
    first_cluster := first_cluster
    clusters := if 2 ≤ first_cluster then env.chainAt first_cluster else []
    extents := to_extents (if 2 ≤ first_cluster then
      env.chainAt first_cluster else [])
    fragments := (to_extents (if 2 ≤ first_cluster then
      env.chainAt first_cluster else [])).length
    is_directory := true }

/-- The entry loop of _walk_dir.  recur is the recursive call into a
subdirectory (walkDir with one unit of fuel less). -/
def walkEntries (recur : Nat → String → Option (List FileRecord))
    (env : WalkEnv) : List DirectoryEntry → String →
    Option (List FileRecord)
  | [], _ => some []
  | e :: es, pfx =>
    if walkSkips e then walkEntries recur env es pfx
    else
      if e.is_directory ∧ 2 ≤ e.first_cluster then
        match recur e.first_cluster
            (pyRstripSlash (pfx ++ entryStem e) ++ "/") with
        | none => none
        | some sub =>
          match walkEntries recur env es pfx with
          | none => none
          | some rest => some (entryRec env pfx e :: (sub ++ rest))
      else
        match walkEntries recur env es pfx with
        | none => none
        | some rest => some (entryRec env pfx e :: rest)

/-- FAT32Analyzer._walk_dir: emit the record for the directory itself,
then process its entries in order, descending into every subdirectory
entry with first_cluster at least 2 (the source keeps no visited set).
Running out of fuel models non-termination of the Python recursion. -/
def walkDir : Nat → WalkEnv → Nat → String → Option (List FileRecord)
  | 0, _, _, _ => none
  | fuel + 1, env, cluster, pfx =>
    match walkEntries (walkDir fuel env) env (env.entriesAt cluster) pfx with
    | none => none
    | some body =>
      some (recordForDir env (pyRstripSlash pfx) cluster :: body)

/-- FAT32Analyzer.walk: _walk_dir from the root directory cluster with
prefix "/". -/
def walk (fuel : Nat) (env : WalkEnv) (root : Nat) :
    Option (List FileRecord) :=
  walkDir fuel env root "/"

/-- walkDir never returns, whatever the fuel: the Python recursion on
this input does not terminate. -/
def walkDiverges (env : WalkEnv) (cluster : Nat) (pfx : String) : Prop :=
  ∀ fuel, walkDir fuel env cluster pfx = none

/-- The conditions under which _walk_dir descends into an entry. -/
def walkDescends (e : DirectoryEntry) : Prop :=
  walkSkips e = false ∧ e.is_directory = true ∧ 2 ≤ e.first_cluster

/-- The directory tree below cluster c has depth below n: the
hypothesis under which the fuelled walk completes. -/
def TreeBounded (env : WalkEnv) : Nat → Nat → Prop
  | 0, _ => False
  | n + 1, c => ∀ e ∈ env.entriesAt c, walkDescends e →
      TreeBounded env n e.first_cluster

/-- A subdirectory entry of cluster 2 whose first_cluster is cluster 2
itself: a directory self-loop as a corrupted FAT can produce. -/
def c4entry : DirectoryEntry :=
  ⟨"SUB", "", 0x10, none, none, none, 2, 0, true, false, false⟩

/-- The image whose root directory (cluster 2) contains only the
self-referential subdirectory entry. -/
def envC4 : WalkEnv :=
  ⟨fun c => if c = 2 then [c4entry] else [], fun _ => [2]⟩

/-- An image with no directory entries at all. -/
def envEmpty : WalkEnv := ⟨fun _ => [], fun _ => []⟩

/-- A subdirectory entry whose decoded name ends in the character '/'
(name bytes 0x41 0x2F and spaces decode to "A/"). -/
def c10entry : DirectoryEntry :=
  ⟨"A/", "", 0x10, none, none, none, 3, 0, true, false, false⟩

/-- The image whose root directory (cluster 2) contains only the
slash-named subdirectory entry, with an empty directory at cluster 3. -/
def envC10 : WalkEnv :=
  ⟨fun c => if c = 2 then [c10entry] else [], fun _ => []⟩

/-- An ordinary subdirectory entry (name "SUB", first_cluster 3). -/
def c10good : DirectoryEntry :=
  ⟨"SUB", "", 0x10, none, none, none, 3, 0, true, false, false⟩

/-- The image whose root directory (cluster 2) contains one ordinary
subdirectory entry, with an empty directory at cluster 3. -/
def envC10w : WalkEnv :=
  ⟨fun c => if c = 2 then [c10good] else [], fun _ => []⟩

end PyDefrag

/-! ## Part 2: the theorems -/

namespace PyDefrag

theorem toExtentsGo_expand (rest : List Nat) :
    ∀ start len, 1 ≤ len →
      expandExtents (toExtentsGo start len (start + len - 1) rest) =
        List.range' start len ++ rest := by
  induction rest with
  | nil =>
    intro start len _
    simp [toExtentsGo, expandExtents]
  | cons cur rest ih =>
    intro start len hlen
    by_cases hc : cur = (start + len - 1) + 1
    · have hcur : cur = start + len := by omega
      have h1 : start + (len + 1) - 1 = cur := by omega
      simp only [toExtentsGo, if_pos hc]
      rw [← h1, ih start (len + 1) (by omega), h1, hcur,
        List.range'_1_concat]
      simp
    · simp only [toExtentsGo, if_neg hc]
      have h1 : cur + 1 - 1 = cur := by omega
      have := ih cur 1 (by omega)
      rw [h1] at this
      simp only [expandExtents, List.map_cons, List.flatten_cons] at this ⊢
      rw [this]
      simp [List.range']

theorem expand_to_extents (chain : List Nat) :
    expandExtents (to_extents chain) = chain := by
  cases chain with
  | nil => simp [to_extents, expandExtents]
  | cons c rest =>
    have := toExtentsGo_expand rest c 1 (by omega)
    simp only [to_extents]
    simpa [List.range'] using this

/-- C2: expanding the extents produced by to_extents reproduces the
original chain, and the empty chain encodes to the empty extent list. -/
theorem c2_extent_round_trip :
    (∀ chain : List Nat, expandExtents (to_extents chain) = chain) ∧
      to_extents [] = [] :=
  ⟨expand_to_extents, rfl⟩

theorem expandExtents_length (exts : List (Nat × Nat)) :
    (expandExtents exts).length = extentLengthSum exts := by
  simp only [expandExtents, extentLengthSum, List.length_flatten,
    List.map_map]
  congr 1
  apply List.map_congr_left
  intro p _
  simp [Function.comp]

theorem toExtentsGo_head (rest : List Nat) :
    ∀ start len prev, ∃ len' t,
      toExtentsGo start len prev rest = (start, len') :: t := by
  induction rest with
  | nil => intro s l p; exact ⟨l, [], rfl⟩
  | cons cur rest ih =>
    intro s l p
    by_cases hc : cur = p + 1
    · simp only [toExtentsGo, if_pos hc]; exact ih s (l + 1) cur
    · simp only [toExtentsGo, if_neg hc]
      obtain ⟨l', t, ht⟩ := ih cur 1 cur
      exact ⟨l, toExtentsGo cur 1 cur rest, rfl⟩

theorem toExtentsGo_noncontig (rest : List Nat) :
    ∀ start len, 1 ≤ len →
      List.Chain' (fun a b : Nat × Nat => b.1 ≠ a.1 + a.2)
        (toExtentsGo start len (start + len - 1) rest) := by
  induction rest with
  | nil => intro s l _; simp [toExtentsGo]
  | cons cur rest ih =>
    intro s l hl
    by_cases hc : cur = (s + l - 1) + 1
    · have h1 : s + (l + 1) - 1 = cur := by omega
      simp only [toExtentsGo, if_pos hc]
      rw [← h1]
      exact ih s (l + 1) (by omega)
    · simp only [toExtentsGo, if_neg hc]
      rw [List.chain'_cons']
      constructor
      · intro b hb
        obtain ⟨l', t, ht⟩ := toExtentsGo_head rest cur 1 cur
        rw [ht] at hb
        simp at hb
        subst hb
        simp
        omega
      · have h1 : cur + 1 - 1 = cur := by omega
        have := ih cur 1 (by omega)
        rwa [h1] at this

theorem getD_take (l : List Nat) {i n : Nat} (h : i < n) :
    (l.take n).getD i 0 = l.getD i 0 := by
  simp [List.getD_eq_getElem?_getD, List.getElem?_take_of_lt h]

theorem length_take_of_le {l : List Nat} {n : Nat} (h : n ≤ l.length) :
    (l.take n).length = n := by
  simp [List.length_take]
  omega

/-- C5 counterexample: a 512-byte image that is zero everywhere except
the 0x55AA signature decodes without error, with bytes_per_sector = 0,
num_fats = 0 and root_dir_cluster = 0, even though the claim requires
parse_boot_sector to surface InvalidBootSector for such geometry. -/
theorem c5_counterexample :
    parse_boot_sector c5img =
      Except.ok ⟨0, 0, 0, 0, 0, 0, 0, 0xAA55⟩ := by
  set_option maxRecDepth 4000 in rfl

/-- C5 amended: parse_boot_sector reads the first 512 bytes and
succeeds exactly when at least 512 bytes are available and bytes 510 and
511 are 0x55, 0xAA; a bad signature byte is reported as the signature
ValueError, a read past the available data as an IndexError (not as the
named TruncatedImage error), and no invariant of the decoded geometry is
validated: the decoded record is returned as unpacked. -/
theorem u8at_take (img : List Nat) {o : Nat} (h : o < 512) :
    u8at (img.take 512) o = u8at img o := getD_take img h

theorem u16at_take (img : List Nat) {o : Nat} (h : o + 1 < 512) :
    u16at (img.take 512) o = u16at img o := by
  unfold u16at
  rw [getD_take img (by omega), getD_take img (by omega)]

theorem u32at_take (img : List Nat) {o : Nat} (h : o + 3 < 512) :
    u32at (img.take 512) o = u32at img o := by
  unfold u32at
  rw [getD_take img (by omega), getD_take img (by omega),
    getD_take img (by omega), getD_take img (by omega)]

theorem c5_boot_sector_decoding (img : List Nat) :
    ((∃ bs, parse_boot_sector img = .ok bs) ↔
      512 ≤ img.length ∧ img.getD 510 0 = 0x55 ∧ img.getD 511 0 = 0xAA) ∧
    (parse_boot_sector img = .error .invalidSignature ↔
      (511 ≤ img.length ∧ img.getD 510 0 ≠ 0x55) ∨
        (512 ≤ img.length ∧ img.getD 510 0 = 0x55 ∧ img.getD 511 0 ≠ 0xAA)) ∧
    (parse_boot_sector img = .error .indexError ↔
      img.length ≤ 510 ∨ (img.length = 511 ∧ img.getD 510 0 = 0x55)) ∧
    (∀ bs, parse_boot_sector img = .ok bs →
      bs = ⟨u16at img 11, u8at img 13, u16at img 14, u8at img 16,
        u32at img 32, u32at img 36, u32at img 44, u16at img 510⟩) := by
  have hlen : (img.take 512).length = min 512 img.length := by
    simp [List.length_take]
  have e510 : (img.take 512).getD 510 0 = img.getD 510 0 :=
    getD_take img (by omega)
  have e511 : (img.take 512).getD 511 0 = img.getD 511 0 :=
    getD_take img (by omega)
  unfold parse_boot_sector
  split_ifs with h1 h2 h3 h4
  · -- fewer than 511 bytes: IndexError at boot_data(510)
    refine ⟨?_, ?_, ?_, fun bs h => by simp at h⟩
    · constructor
      · rintro ⟨bs, h⟩; simp at h
      · rintro ⟨h, -, -⟩; omega
    · constructor
      · intro h; simp at h
      · rintro (⟨h, -⟩ | ⟨h, -, -⟩) <;> omega
    · exact ⟨fun _ => Or.inl (by omega), fun _ => rfl⟩
  · -- at least 511 bytes, boot_data(510) is not 0x55: ValueError
    rw [e510] at h2
    refine ⟨?_, ?_, ?_, fun bs h => by simp at h⟩
    · constructor
      · rintro ⟨bs, h⟩; simp at h
      · rintro ⟨-, h, -⟩; exact absurd h h2
    · constructor
      · intro _; exact Or.inl ⟨by omega, h2⟩
      · intro _; rfl
    · constructor
      · intro h; simp at h
      · rintro (h | ⟨-, h⟩)
        · omega
        · exact absurd h h2
  · -- exactly 511 bytes, boot_data(510) = 0x55: IndexError at 511
    rw [e510, not_not] at h2
    refine ⟨?_, ?_, ?_, fun bs h => by simp at h⟩
    · constructor
      · rintro ⟨bs, h⟩; simp at h
      · rintro ⟨h, -, -⟩; omega
    · constructor
      · intro h; simp at h
      · rintro (⟨-, h⟩ | ⟨h, -, -⟩)
        · exact absurd h2 h
        · omega
    · constructor
      · intro _; exact Or.inr ⟨by omega, h2⟩
      · intro _; rfl
  · -- at least 512 bytes, boot_data(511) is not 0xAA: ValueError
    rw [e510, not_not] at h2
    rw [e511] at h4
    refine ⟨?_, ?_, ?_, fun bs h => by simp at h⟩
    · constructor
      · rintro ⟨bs, h⟩; simp at h
      · rintro ⟨-, -, h⟩; exact absurd h h4
    · constructor
      · intro _; exact Or.inr ⟨by omega, h2, h4⟩
      · intro _; rfl
    · constructor
      · intro h; simp at h
      · rintro (h | ⟨h, -⟩) <;> omega
  · -- valid signature with at least 512 bytes: decode succeeds
    rw [e510, not_not] at h2
    rw [e511, not_not] at h4
    have hfields :
        (⟨u16at (img.take 512) 11, u8at (img.take 512) 13,
          u16at (img.take 512) 14, u8at (img.take 512) 16,
          u32at (img.take 512) 32, u32at (img.take 512) 36,
          u32at (img.take 512) 44, u16at (img.take 512) 510⟩ : BootSector) =
        ⟨u16at img 11, u8at img 13, u16at img 14, u8at img 16,
          u32at img 32, u32at img 36, u32at img 44, u16at img 510⟩ := by
      rw [u16at_take img (by omega), u8at_take img (by omega),
        u16at_take img (by omega), u8at_take img (by omega),
        u32at_take img (by omega), u32at_take img (by omega),
        u32at_take img (by omega), u16at_take img (by omega)]
    refine ⟨?_, ?_, ?_, ?_⟩
    · exact ⟨fun _ => ⟨by omega, h2, h4⟩, fun _ => ⟨_, rfl⟩⟩
    · constructor
      · intro h; simp at h
      · rintro (⟨-, h⟩ | ⟨-, -, h⟩)
        · exact absurd h2 h
        · exact absurd h4 h
    · constructor
      · intro h; simp at h
      · rintro (h | ⟨h, -⟩) <;> omega
    · intro bs h
      simp only [Except.ok.injEq] at h
      rw [← h, hfields]

theorem classify_next {x v : Nat} (h : classify x = .next v) :
    v = x ∧ 2 ≤ x ∧ x ≤ 0x0FFFFFEF := by
  unfold classify at h
  split_ifs at h with h0 h1 h2 h3 h4 <;> cases h
  exact ⟨rfl, by omega, h2⟩

theorem chainGo_cyc {img : Nat → Nat} {bs : BootSector} {ch : List Nat}
    {cur v : Nat} (hcl : classify (read_fat_entry img bs cur) = .next v)
    (hv : v ∈ ch) :
    chainGo img bs ch cur = (ch, some .cyclicChain) := by
  rw [chainGo, hcl]
  simp [hv]

theorem chainGo_range {img : Nat → Nat} {bs : BootSector} {ch : List Nat}
    {cur v : Nat} (hcl : classify (read_fat_entry img bs cur) = .next v)
    (hv : v ∉ ch) (hT : total_clusters bs + 1 < (v : Int)) :
    chainGo img bs ch cur = (ch, some .outOfRangeLink) := by
  rw [chainGo, hcl]
  simp [hv, hT]

theorem chainGo_app {img : Nat → Nat} {bs : BootSector} {ch : List Nat}
    {cur v : Nat} (hcl : classify (read_fat_entry img bs cur) = .next v)
    (hv : v ∉ ch) (hT : ¬ total_clusters bs + 1 < (v : Int)) :
    chainGo img bs ch cur = chainGo img bs (ch ++ [v]) v := by
  conv_lhs => rw [chainGo]
  rw [hcl]
  simp [hv, hT]

theorem chainGo_stop {img : Nat → Nat} {bs : BootSector} {ch : List Nat}
    {cur : Nat}
    (hcl : ∀ v, classify (read_fat_entry img bs cur) ≠ .next v) :
    chainGo img bs ch cur = (ch, none) := by
  rw [chainGo]
  cases h : classify (read_fat_entry img bs cur) with
  | next v => exact absurd h (hcl v)
  | _ => rfl

theorem chainGo_spec (img : Nat → Nat) (bs : BootSector) :
    ∀ ch cur, ch.getLast? = some cur → ch.Nodup →
      (∀ x : Nat, x ∈ ch.tail → 2 ≤ x ∧ (x : Int) ≤ total_clusters bs + 1) →
      (chainGo img bs ch cur).1.head? = ch.head? ∧
      (chainGo img bs ch cur).1.Nodup ∧
      (∀ x : Nat, x ∈ (chainGo img bs ch cur).1.tail →
        2 ≤ x ∧ (x : Int) ≤ total_clusters bs + 1) ∧
      ∃ last, (chainGo img bs ch cur).1.getLast? = some last ∧
        ((chainGo img bs ch cur).2 = some ChainWarning.cyclicChain ↔
          ∃ v, classify (read_fat_entry img bs last) = .next v ∧
            v ∈ (chainGo img bs ch cur).1) := by
  intro ch cur
  induction ch, cur using chainGo.induct img bs with
  | case1 ch cur v hcl hv =>
    intro hLast hNodup hRange
    rw [chainGo_cyc hcl hv]
    exact ⟨rfl, hNodup, hRange, cur, hLast,
      fun _ => ⟨v, hcl, hv⟩, fun _ => rfl⟩
  | case2 ch cur v hcl hv hT =>
    intro hLast hNodup hRange
    rw [chainGo_range hcl hv hT]
    refine ⟨rfl, hNodup, hRange, cur, hLast, ?_, ?_⟩
    · intro h; simp at h
    · rintro ⟨v', hcl', hv'⟩
      rw [hcl] at hcl'
      cases hcl'
      exact absurd hv' hv
  | case3 ch cur v hcl hv hT ih =>
    intro hLast hNodup hRange
    have hne : ch ≠ [] := by
      intro h; rw [h] at hLast; simp at hLast
    obtain ⟨c0, t, rfl⟩ : ∃ c0 t, ch = c0 :: t := by
      cases ch with
      | nil => exact absurd rfl hne
      | cons a t => exact ⟨a, t, rfl⟩
    obtain ⟨hvv, hx2, -⟩ := classify_next hcl
    have hv2 : 2 ≤ v := by omega
    have hvT : (v : Int) ≤ total_clusters bs + 1 := by omega
    rw [chainGo_app hcl hv hT]
    have hLast' : ((c0 :: t) ++ [v]).getLast? = some v :=
      List.getLast?_concat _
    have hNodup' : ((c0 :: t) ++ [v]).Nodup := by
      rw [List.nodup_append]
      exact ⟨hNodup, List.nodup_singleton v,
        fun a ha hav => hv ((List.mem_singleton.mp hav) ▸ ha)⟩
    have hRange' : ∀ x : Nat, x ∈ ((c0 :: t) ++ [v]).tail →
        2 ≤ x ∧ (x : Int) ≤ total_clusters bs + 1 := by
      intro x hx
      simp only [List.cons_append, List.tail_cons] at hx
      rcases List.mem_append.mp hx with h | h
      · exact hRange x (by simpa using h)
      · rw [List.mem_singleton.mp h]; exact ⟨hv2, hvT⟩
    have := ih hLast' hNodup' hRange'
    refine ⟨?_, this.2.1, this.2.2.1, this.2.2.2⟩
    rw [this.1]
    simp
  | case4 ch cur hcl =>
    intro hLast hNodup hRange
    rw [chainGo_stop hcl]
    refine ⟨rfl, hNodup, hRange, cur, hLast, ?_, ?_⟩
    · intro h; simp at h
    · rintro ⟨v, hclv, -⟩
      exact absurd hclv (hcl v)

/-- C3: for every image and every start cluster of at least 2, the
modelled chain follower produces a finite chain that starts at start,
never contains the same cluster twice (a would-be duplicate is not
appended: the chain is truncated at it), is bounded in length by the
cluster count, and surfaces the non-fatal CyclicChain warning exactly
when following stopped because the next link would revisit a chain
member. -/
theorem c3_chain_follower (img : Nat → Nat) (bs : BootSector)
    (start : Nat) (hstart : 2 ≤ start) :
    ∃ ch w, get_cluster_chain img bs start = .ok (ch, w) ∧
      ch.head? = some start ∧ ch.Nodup ∧
      ch.length ≤ (total_clusters bs).toNat + 2 ∧
      ∃ last, ch.getLast? = some last ∧
        (w = some ChainWarning.cyclicChain ↔
          ∃ v, classify (read_fat_entry img bs last) = .next v ∧ v ∈ ch) := by
  have hspec := chainGo_spec img bs [start] start (by simp) (by simp) (by simp)
  refine ⟨(chainGo img bs [start] start).1, (chainGo img bs [start] start).2,
    ?_, ?_, hspec.2.1, ?_, hspec.2.2.2⟩
  · unfold get_cluster_chain
    rw [if_neg (by omega)]
  · rw [hspec.1]; rfl
  · -- length bound from nodup plus the range of the tail elements
    have hnd := hspec.2.1
    have hrange := hspec.2.2.1
    have hhead := hspec.1
    cases hr : (chainGo img bs [start] start).1 with
    | nil => simp
    | cons a t =>
      rw [hr] at hnd hrange
      have htn : t.Nodup := hnd.of_cons
      have hsub : t.toFinset ⊆ Finset.Icc 2 ((total_clusters bs).toNat + 1) := by
        intro x hx
        have hx' := hrange x (by simpa using List.mem_toFinset.mp hx)
        rw [Finset.mem_Icc]
        have := Int.self_le_toNat (total_clusters bs)
        omega
      have hcard := Finset.card_le_card hsub
      rw [List.toFinset_card_of_nodup htn] at hcard
      rw [Nat.card_Icc] at hcard
      simp only [List.length_cons]
      omega

/-- Witness for c3_chain_follower at the all-zero image where the FAT
entry of every cluster is Free, with start cluster 2. -/
theorem c3_chain_follower_witness :
    ∃ ch w, get_cluster_chain c3img c3bs 2 = .ok (ch, w) ∧
      ch.head? = some 2 ∧ ch.Nodup ∧
      ch.length ≤ (total_clusters c3bs).toNat + 2 ∧
      ∃ last, ch.getLast? = some last ∧
        (w = some ChainWarning.cyclicChain ↔
          ∃ v, classify (read_fat_entry c3img c3bs last) = .next v ∧
            v ∈ ch) :=
  c3_chain_follower c3img c3bs 2 (by norm_num)

/-- Witness for c5_boot_sector_decoding: instantiating at the concrete
all-zero 512-byte image with a valid signature. -/
theorem c5_boot_sector_decoding_witness :
    (⟨0, 0, 0, 0, 0, 0, 0, 0xAA55⟩ : BootSector) =
      ⟨u16at c5img 11, u8at c5img 13, u16at c5img 14, u8at c5img 16,
        u32at c5img 32, u32at c5img 36, u32at c5img 44, u16at c5img 510⟩ :=
  (c5_boot_sector_decoding c5img).2.2.2 _
    (by set_option maxRecDepth 4000 in rfl)

/-- C8: the extent lengths produced by to_extents sum to the chain
length, and no two adjacent extents (s1, l1), (s2, l2) satisfy
s2 = s1 + l1. -/
theorem c8_extent_invariants (chain : List Nat) :
    extentLengthSum (to_extents chain) = chain.length ∧
      List.Chain' (fun a b : Nat × Nat => b.1 ≠ a.1 + a.2)
        (to_extents chain) := by
  constructor
  · rw [← expandExtents_length, expand_to_extents]
  · cases chain with
    | nil => simp [to_extents]
    | cons c rest =>
      have := toExtentsGo_noncontig rest c 1 (by omega)
      simpa [to_extents] using this

theorem list32 (s : List Nat) (h : s.length = 32) :
    s = [s.getD 0 0, s.getD 1 0, s.getD 2 0, s.getD 3 0, s.getD 4 0, s.getD 5 0, s.getD 6 0, s.getD 7 0, s.getD 8 0, s.getD 9 0, s.getD 10 0, s.getD 11 0, s.getD 12 0, s.getD 13 0, s.getD 14 0, s.getD 15 0, s.getD 16 0, s.getD 17 0, s.getD 18 0, s.getD 19 0, s.getD 20 0, s.getD 21 0, s.getD 22 0, s.getD 23 0, s.getD 24 0, s.getD 25 0, s.getD 26 0, s.getD 27 0, s.getD 28 0, s.getD 29 0, s.getD 30 0, s.getD 31 0] := by
  obtain ⟨a0, t0, rfl⟩ := List.exists_of_length_succ s h
  have h0 : t0.length = 31 := by simpa using h
  obtain ⟨a1, t1, rfl⟩ := List.exists_of_length_succ t0 h0
  have h1 : t1.length = 30 := by simpa using h0
  obtain ⟨a2, t2, rfl⟩ := List.exists_of_length_succ t1 h1
  have h2 : t2.length = 29 := by simpa using h1
  obtain ⟨a3, t3, rfl⟩ := List.exists_of_length_succ t2 h2
  have h3 : t3.length = 28 := by simpa using h2
  obtain ⟨a4, t4, rfl⟩ := List.exists_of_length_succ t3 h3
  have h4 : t4.length = 27 := by simpa using h3
  obtain ⟨a5, t5, rfl⟩ := List.exists_of_length_succ t4 h4
  have h5 : t5.length = 26 := by simpa using h4
  obtain ⟨a6, t6, rfl⟩ := List.exists_of_length_succ t5 h5
  have h6 : t6.length = 25 := by simpa using h5
  obtain ⟨a7, t7, rfl⟩ := List.exists_of_length_succ t6 h6
  have h7 : t7.length = 24 := by simpa using h6
  obtain ⟨a8, t8, rfl⟩ := List.exists_of_length_succ t7 h7
  have h8 : t8.length = 23 := by simpa using h7
  obtain ⟨a9, t9, rfl⟩ := List.exists_of_length_succ t8 h8
  have h9 : t9.length = 22 := by simpa using h8
  obtain ⟨a10, t10, rfl⟩ := List.exists_of_length_succ t9 h9
  have h10 : t10.length = 21 := by simpa using h9
  obtain ⟨a11, t11, rfl⟩ := List.exists_of_length_succ t10 h10
  have h11 : t11.length = 20 := by simpa using h10
  obtain ⟨a12, t12, rfl⟩ := List.exists_of_length_succ t11 h11
  have h12 : t12.length = 19 := by simpa using h11
  obtain ⟨a13, t13, rfl⟩ := List.exists_of_length_succ t12 h12
  have h13 : t13.length = 18 := by simpa using h12
  obtain ⟨a14, t14, rfl⟩ := List.exists_of_length_succ t13 h13
  have h14 : t14.length = 17 := by simpa using h13
  obtain ⟨a15, t15, rfl⟩ := List.exists_of_length_succ t14 h14
  have h15 : t15.length = 16 := by simpa using h14
  obtain ⟨a16, t16, rfl⟩ := List.exists_of_length_succ t15 h15
  have h16 : t16.length = 15 := by simpa using h15
  obtain ⟨a17, t17, rfl⟩ := List.exists_of_length_succ t16 h16
  have h17 : t17.length = 14 := by simpa using h16
  obtain ⟨a18, t18, rfl⟩ := List.exists_of_length_succ t17 h17
  have h18 : t18.length = 13 := by simpa using h17
  obtain ⟨a19, t19, rfl⟩ := List.exists_of_length_succ t18 h18
  have h19 : t19.length = 12 := by simpa using h18
  obtain ⟨a20, t20, rfl⟩ := List.exists_of_length_succ t19 h19
  have h20 : t20.length = 11 := by simpa using h19
  obtain ⟨a21, t21, rfl⟩ := List.exists_of_length_succ t20 h20
  have h21 : t21.length = 10 := by simpa using h20
  obtain ⟨a22, t22, rfl⟩ := List.exists_of_length_succ t21 h21
  have h22 : t22.length = 9 := by simpa using h21
  obtain ⟨a23, t23, rfl⟩ := List.exists_of_length_succ t22 h22
  have h23 : t23.length = 8 := by simpa using h22
  obtain ⟨a24, t24, rfl⟩ := List.exists_of_length_succ t23 h23
  have h24 : t24.length = 7 := by simpa using h23
  obtain ⟨a25, t25, rfl⟩ := List.exists_of_length_succ t24 h24
  have h25 : t25.length = 6 := by simpa using h24
  obtain ⟨a26, t26, rfl⟩ := List.exists_of_length_succ t25 h25
  have h26 : t26.length = 5 := by simpa using h25
  obtain ⟨a27, t27, rfl⟩ := List.exists_of_length_succ t26 h26
  have h27 : t27.length = 4 := by simpa using h26
  obtain ⟨a28, t28, rfl⟩ := List.exists_of_length_succ t27 h27
  have h28 : t28.length = 3 := by simpa using h27
  obtain ⟨a29, t29, rfl⟩ := List.exists_of_length_succ t28 h28
  have h29 : t29.length = 2 := by simpa using h28
  obtain ⟨a30, t30, rfl⟩ := List.exists_of_length_succ t29 h29
  have h30 : t30.length = 1 := by simpa using h29
  obtain ⟨a31, t31, rfl⟩ := List.exists_of_length_succ t30 h30
  have h31 : t31.length = 0 := by simpa using h30
  rw [List.length_eq_zero] at h31
  subst h31
  rfl

theorem parse_nil : parse_directory_entries [] = [] := rfl

theorem parse_stop (s rest : List Nat) (h32 : s.length = 32)
    (h0 : s.getD 0 0 = 0x00) :
    parse_directory_entries (s ++ rest) = [] := by
  conv_lhs => rw [list32 s h32]
  simp only [List.cons_append, List.nil_append, parse_directory_entries]
  rw [h0]
  simp

theorem parse_skip_deleted (s rest : List Nat) (h32 : s.length = 32)
    (h0 : s.getD 0 0 = 0xE5) :
    parse_directory_entries (s ++ rest) = parse_directory_entries rest := by
  conv_lhs => rw [list32 s h32]
  simp only [List.cons_append, List.nil_append, parse_directory_entries]
  rw [h0]
  simp

theorem parse_skip_lfn (s rest : List Nat) (h32 : s.length = 32)
    (h0 : s.getD 0 0 ≠ 0x00) (hA : s.getD 11 0 = 0x0F) :
    parse_directory_entries (s ++ rest) = parse_directory_entries rest := by
  by_cases hE : s.getD 0 0 = 0xE5
  · exact parse_skip_deleted s rest h32 hE
  · conv_lhs => rw [list32 s h32]
    simp only [List.cons_append, List.nil_append, parse_directory_entries]
    rw [if_neg h0, if_neg hE, hA]
    norm_num

theorem parse_decode (s rest : List Nat) (h32 : s.length = 32)
    (h0 : s.getD 0 0 ≠ 0x00) (hE : s.getD 0 0 ≠ 0xE5)
    (hA : s.getD 11 0 ≠ 0x0F) :
    parse_directory_entries (s ++ rest) =
      decodeShortEntry s :: parse_directory_entries rest := by
  conv_lhs => rw [list32 s h32]
  simp only [List.cons_append, List.nil_append, parse_directory_entries]
  rw [if_neg h0, if_neg hE, if_neg hA, ← list32 s h32]
  rfl


theorem rstripChars_cons (c : Char) (cs : List Char)
    (hc : isPySpace c = false) :
    rstripChars (c :: cs) = c :: rstripChars cs := by
  unfold rstripChars
  rw [List.reverse_cons, List.dropWhile_append]
  by_cases h : (cs.reverse.dropWhile isPySpace).isEmpty
  · rw [if_pos h]
    have he : cs.reverse.dropWhile isPySpace = [] := by
      rwa [List.isEmpty_iff] at h
    rw [he]
    simp [List.dropWhile_cons, hc]
  · rw [if_neg h]
    rw [List.reverse_append]
    simp

/-- C6 counterexample: the spec-scenario slot with name bytes
0x05 'A' 'A' 'A' and space padding decodes to the name
0x05 'A' 'A' 'A': the first character stays 0x05, it is not replaced by
0xE5 as the claim requires. -/
theorem c6_counterexample :
    (parse_directory_entries c6slot).map DirectoryEntry.name =
        ["\x05AAA"] ∧
      ("\x05AAA".data.headD ' ' = '\x05' ∧
        ¬ "\x05AAA".data.headD ' ' = Char.ofNat 0xE5) := by
  refine ⟨by decide, by decide, by decide⟩

/-- C6 amended: the decoder performs no 0x05-to-0xE5 replacement: every
32-byte slot whose first name byte is 0x05 (and which is not skipped as
a long-filename slot) decodes to an entry whose name starts with the
character 0x05. -/
theorem c6_escaped_first_byte (s : List Nat) (h32 : s.length = 32)
    (h0 : s.getD 0 0 = 0x05) (hA : s.getD 11 0 ≠ 0x0F) :
    parse_directory_entries s = [decodeShortEntry s] ∧
    (decodeShortEntry s).name.data.headD ' ' = '\x05' := by
  constructor
  · have h : parse_directory_entries (s ++ []) =
        decodeShortEntry s :: parse_directory_entries [] :=
      parse_decode s [] h32 (by rw [h0]; norm_num) (by rw [h0]; norm_num) hA
    rw [List.append_nil] at h
    rw [h, parse_nil]
  · have htake : s.take 8 = [s.getD 0 0, s.getD 1 0, s.getD 2 0,
        s.getD 3 0, s.getD 4 0, s.getD 5 0, s.getD 6 0, s.getD 7 0] := by
      conv_lhs => rw [list32 s h32]
      rfl
    show (decodeAsciiRstrip (s.take 8)).data.headD ' ' = '\x05'
    rw [htake]
    simp only [decodeAsciiRstrip, List.map_cons]
    rw [h0]
    have hchr : pyChr 0x05 = '\x05' := by decide
    rw [hchr, rstripChars_cons _ _ (by decide)]
    rfl

/-- Witness for c6_escaped_first_byte at the concrete scenario slot. -/
theorem c6_escaped_first_byte_witness :
    parse_directory_entries c6slot = [decodeShortEntry c6slot] ∧
    (decodeShortEntry c6slot).name.data.headD ' ' = '\x05' :=
  c6_escaped_first_byte c6slot (by decide) (by decide) (by decide)

/-- C7 counterexample: a buffer of exactly the claimed shape (deleted
slot, three slots with attribute byte 0x0F, README TXT short-name slot,
zero terminator slot) in which the first 0x0F slot begins with byte
0x00 makes the decoder stop at that slot and emit no entry at all,
not the one entry the claim requires. -/
theorem c7_counterexample :
    parse_directory_entries c7buf = [] := by
  decide

/-- C7 amended: for a buffer of one deleted slot, three slots with
attribute byte 0x0F whose first bytes are nonzero, the README TXT
short-name slot, a slot with first byte 0x00 and arbitrary further
bytes, the decoder emits exactly the one README.TXT entry and stops at
the zero slot without decoding anything after it. -/
theorem c7_deleted_and_lfn_slots
    (s1 s2 s3 s4 s5 s6 rest : List Nat)
    (h1l : s1.length = 32) (h1 : s1.getD 0 0 = 0xE5)
    (h2l : s2.length = 32) (h2z : s2.getD 0 0 ≠ 0x00)
    (h2 : s2.getD 11 0 = 0x0F)
    (h3l : s3.length = 32) (h3z : s3.getD 0 0 ≠ 0x00)
    (h3 : s3.getD 11 0 = 0x0F)
    (h4l : s4.length = 32) (h4z : s4.getD 0 0 ≠ 0x00)
    (h4 : s4.getD 11 0 = 0x0F)
    (h5l : s5.length = 32)
    (h5n : s5.take 11 = [0x52, 0x45, 0x41, 0x44, 0x4D, 0x45, 0x20, 0x20,
      0x54, 0x58, 0x54])
    (h5a : s5.getD 11 0 ≠ 0x0F)
    (h6l : s6.length = 32) (h6 : s6.getD 0 0 = 0x00) :
    parse_directory_entries
        (s1 ++ (s2 ++ (s3 ++ (s4 ++ (s5 ++ (s6 ++ rest)))))) =
      [decodeShortEntry s5] ∧
    (decodeShortEntry s5).name = "README" ∧
    (decodeShortEntry s5).extension = "TXT" ∧
    full_name (decodeShortEntry s5) = "README.TXT" := by
  have gAll : ∀ i : Nat, i < 11 → s5.getD i 0 =
      List.getD [0x52, 0x45, 0x41, 0x44, 0x4D, 0x45, 0x20, 0x20,
        0x54, 0x58, 0x54] i 0 := by
    intro i hi
    rw [← getD_take s5 hi, h5n]
  have e0 : s5.getD 0 0 = 0x52 := (gAll 0 (by norm_num)).trans rfl
  have ht8 : s5.take 8 = [s5.getD 0 0, s5.getD 1 0, s5.getD 2 0,
      s5.getD 3 0, s5.getD 4 0, s5.getD 5 0, s5.getD 6 0, s5.getD 7 0] := by
    conv_lhs => rw [list32 s5 h5l]
    rfl
  have ht8' : s5.take 8 = [0x52, 0x45, 0x41, 0x44, 0x4D, 0x45,
      0x20, 0x20] := by
    rw [ht8, gAll 0 (by norm_num), gAll 1 (by norm_num),
      gAll 2 (by norm_num), gAll 3 (by norm_num), gAll 4 (by norm_num),
      gAll 5 (by norm_num), gAll 6 (by norm_num), gAll 7 (by norm_num)]
    rfl
  have ht3 : (s5.drop 8).take 3 = [s5.getD 8 0, s5.getD 9 0,
      s5.getD 10 0] := by
    conv_lhs => rw [list32 s5 h5l]
    rfl
  have ht3' : (s5.drop 8).take 3 = [0x54, 0x58, 0x54] := by
    rw [ht3, gAll 8 (by norm_num), gAll 9 (by norm_num),
      gAll 10 (by norm_num)]
    rfl
  have hname : (decodeShortEntry s5).name = "README" := by
    show decodeAsciiRstrip (s5.take 8) = "README"
    rw [ht8']
    decide
  have hext : (decodeShortEntry s5).extension = "TXT" := by
    show decodeAsciiRstrip ((s5.drop 8).take 3) = "TXT"
    rw [ht3']
    decide
  have hfull : full_name (decodeShortEntry s5) = "README.TXT" := by
    unfold full_name
    rw [hname, hext]
    decide
  refine ⟨?_, hname, hext, hfull⟩
  rw [parse_skip_deleted s1 _ h1l h1,
    parse_skip_lfn s2 _ h2l h2z h2,
    parse_skip_lfn s3 _ h3l h3z h3,
    parse_skip_lfn s4 _ h4l h4z h4,
    parse_decode s5 _ h5l (by rw [e0]; norm_num) (by rw [e0]; norm_num) h5a,
    parse_stop s6 _ h6l h6]

/-- Witness for c7_deleted_and_lfn_slots at a concrete buffer with
ordinary long-filename slots (first byte 0x01). -/
theorem c7_deleted_and_lfn_slots_witness :
    parse_directory_entries
        (c7s1 ++ (c7lfn ++ (c7lfn ++ (c7lfn ++ (c7s5 ++ (c7s6 ++ [])))))) =
      [decodeShortEntry c7s5] ∧
    (decodeShortEntry c7s5).name = "README" ∧
    (decodeShortEntry c7s5).extension = "TXT" ∧
    full_name (decodeShortEntry c7s5) = "README.TXT" :=
  c7_deleted_and_lfn_slots c7s1 c7lfn c7lfn c7lfn c7s5 c7s6 []
    (by decide) (by decide) (by decide) (by decide) (by decide)
    (by decide) (by decide) (by decide) (by decide) (by decide)
    (by decide) (by decide) (by decide) (by decide) (by decide)
    (by decide)


/-- C1: at the failing input consisting of one empty-file record
(fragments = 0) and no free runs, the source's
volume_fragmentation_index is sum(frags - 1) / max(1, sum(frags)) = -1,
a negative value, contradicting both the claimed formula with
max(0, frags - 1) (which gives 0) and the claimed bound
0 <= volume_fragmentation_index < 1. -/
theorem c1_fragmentation_index_negative :
    (stats c1bs [c1rec] []).volume_fragmentation_index = -1 ∧
      (stats c1bs [c1rec] []).volume_fragmentation_index < 0 := by
  have h : (stats c1bs [c1rec] []).volume_fragmentation_index = -1 := by
    simp [stats, c1rec]
  exact ⟨h, by rw [h]; norm_num⟩

theorem lzCount_le (bm : List Nat) : lzCount bm ≤ bm.length := by
  induction bm with
  | nil => simp [lzCount]
  | cons b r ih =>
    simp only [lzCount, List.length_cons]
    split_ifs
    · omega
    · omega

theorem lz_decomp (bm : List Nat) :
    bm = List.replicate (lzCount bm) 0 ++ List.drop (lzCount bm) bm ∧
      (List.drop (lzCount bm) bm).getD 0 1 ≠ 0 := by
  induction bm with
  | nil => exact ⟨rfl, by simp⟩
  | cons b r ih =>
    by_cases hb : b = 0
    · subst hb
      have h1 : lzCount ((0 : Nat) :: r) = lzCount r + 1 := by simp [lzCount]
      rw [h1]
      refine ⟨?_, ?_⟩
      · simp only [List.replicate_succ, List.drop_succ_cons, List.cons_append]
        exact congrArg (List.cons 0) ih.1
      · simp only [List.drop_succ_cons]
        exact ih.2
    · have h1 : lzCount (b :: r) = 0 := by simp [lzCount, hb]
      rw [h1]
      exact ⟨rfl, by simpa using hb⟩

theorem feGo_nil (i : Nat) : feGo [] i = [] := by
  rw [feGo]

theorem feGo_zero (r : List Nat) (i : Nat) :
    feGo (0 :: r) i =
      (i + 2, lzCount (0 :: r)) ::
        feGo (List.drop (lzCount (0 :: r)) (0 :: r))
          (i + lzCount (0 :: r)) := by
  rw [feGo]
  simp

theorem feGo_pos (b : Nat) (r : List Nat) (i : Nat) (hb : b ≠ 0) :
    feGo (b :: r) i = feGo r (i + 1) := by
  rw [feGo]
  simp [hb]

theorem feGo_partition :
    ∀ n (bm : List Nat) (i : Nat), bm.length ≤ n →
      (∀ x ∈ bm, x = 0 ∨ x = 1) →
      extentLengthSum (feGo bm i) + bm.count 1 = bm.length := by
  intro n
  induction n with
  | zero =>
    intro bm i hlen _
    have hbm : bm = [] := by
      cases bm with
      | nil => rfl
      | cons b r => simp at hlen
    subst hbm
    simp [feGo_nil, extentLengthSum]
  | succ n ih =>
    intro bm i hlen h01
    cases bm with
    | nil => simp [feGo_nil, extentLengthSum]
    | cons b r =>
      by_cases hb : b = 0
      · subst hb
        rw [feGo_zero]
        have hdec := (lz_decomp ((0 : Nat) :: r)).1
        have hj1 : 1 ≤ lzCount ((0 : Nat) :: r) := by simp [lzCount]
        have hjle := lzCount_le ((0 : Nat) :: r)
        have hrlen :
            (List.drop (lzCount ((0 : Nat) :: r)) ((0 : Nat) :: r)).length ≤
              n := by
          simp only [List.length_drop, List.length_cons]
          simp only [List.length_cons] at hlen
          omega
        have h01' : ∀ x ∈ List.drop (lzCount ((0 : Nat) :: r))
            ((0 : Nat) :: r), x = 0 ∨ x = 1 :=
          fun x hx => h01 x (List.mem_of_mem_drop hx)
        have IH := ih _ (i + lzCount ((0 : Nat) :: r)) hrlen h01'
        have hcount : ((0 : Nat) :: r).count 1 =
            (List.drop (lzCount ((0 : Nat) :: r)) ((0 : Nat) :: r)).count 1 := by
          conv_lhs => rw [hdec]
          rw [List.count_append, List.count_replicate]
          simp
        have hlen2 : ((0 : Nat) :: r).length =
            lzCount ((0 : Nat) :: r) +
              (List.drop (lzCount ((0 : Nat) :: r)) ((0 : Nat) :: r)).length := by
          conv_lhs => rw [hdec]
          simp
        simp only [extentLengthSum, List.map_cons, List.sum_cons] at IH ⊢
        omega
      · have hb1 : b = 1 := by
          rcases h01 b (by simp) with h | h
          · exact absurd h hb
          · exact h
        subst hb1
        rw [feGo_pos _ _ _ (by norm_num)]
        have IH := ih r (i + 1) (by simp only [List.length_cons] at hlen; omega)
          (fun x hx => h01 x (by simp [hx]))
        rw [List.count_cons_self]
        simp only [List.length_cons]
        simp only [extentLengthSum] at IH ⊢
        omega


theorem take_rep {n j : Nat} (h : n ≤ j) :
    (List.replicate j (0 : Nat)).take n = List.replicate n 0 := by
  have hsplit : List.replicate j (0 : Nat) =
      List.replicate n 0 ++ List.replicate (j - n) 0 := by
    rw [← List.replicate_add]
    congr 1
    omega
  rw [hsplit, List.take_append_of_le_length (by simp),
    List.take_of_length_le (by simp)]

theorem drop_rep_self (j : Nat) :
    (List.replicate j (0 : Nat)).drop j = [] := by
  induction j with
  | zero => rfl
  | succ n ih => simpa [List.replicate_succ] using ih

theorem mzr_nil (a l : Nat) : ¬ isMaxZeroRun [] a l := by
  rintro ⟨hl, pre, post, heq, -, -, -⟩
  have hlen := congrArg List.length heq
  simp at hlen
  omega

theorem mzr_cons {b : Nat} (r : List Nat) {l : Nat} (hb : b ≠ 0) (a : Nat) :
    isMaxZeroRun (b :: r) a l ↔ ∃ a', a = a' + 1 ∧ isMaxZeroRun r a' l := by
  constructor
  · rintro ⟨hl, pre, post, heq, hlen, hpre, hpost⟩
    cases pre with
    | nil =>
      exfalso
      cases l with
      | zero => omega
      | succ l' =>
        rw [List.nil_append, List.replicate_succ, List.cons_append] at heq
        injection heq with h1 h2
        exact hb h1
    | cons p pre' =>
      rw [List.cons_append] at heq
      injection heq with h1 h2
      refine ⟨pre'.length, ?_, hl, pre', post, h2, rfl, ?_, hpost⟩
      · simp only [List.length_cons] at hlen
        omega
      · intro x hx
        apply hpre
        cases pre' with
        | nil => simp at hx
        | cons q pre'' =>
          rw [List.getLast?_cons_cons]
          exact hx
  · rintro ⟨a', rfl, hl, pre', post, heq, hlen, hpre, hpost⟩
    refine ⟨hl, b :: pre', post, ?_, ?_, ?_, hpost⟩
    · rw [List.cons_append, heq]
    · simp [hlen]
    · intro x hx
      cases pre' with
      | nil =>
        simp at hx
        exact hx ▸ hb
      | cons q pre'' =>
        rw [List.getLast?_cons_cons] at hx
        exact hpre x hx

theorem getD_rep_app (j : Nat) (rest : List Nat) (k d : Nat) :
    (List.replicate j 0 ++ rest).getD k d =
      if k < j then 0 else rest.getD (k - j) d := by
  by_cases h : k < j
  · rw [if_pos h,
      List.getD_append _ _ _ _ (by simp only [List.length_replicate]; omega)]
    simp [List.getD_eq_getElem?_getD, List.getElem?_replicate, h]
  · rw [if_neg h,
      List.getD_append_right _ _ _ _
        (by simp only [List.length_replicate]; omega)]
    simp

theorem mzr_decomp {j : Nat} (rest : List Nat) (hj : 1 ≤ j)
    (hrest : rest.getD 0 1 ≠ 0) (a l : Nat) :
    isMaxZeroRun (List.replicate j 0 ++ rest) a l ↔
      (a = 0 ∧ l = j) ∨ ∃ a', a = j + a' ∧ isMaxZeroRun rest a' l := by
  constructor
  · rintro ⟨hl, pre, post, heq, hlen, hpre, hpost⟩
    by_cases hcase : a < j
    · have ha : a = 0 := by
        by_contra hne
        have h1 := congrArg (List.take a) heq
        rw [List.take_append_of_le_length
            (by simp only [List.length_replicate]; omega),
          take_rep (by omega),
          List.take_append_of_le_length (by omega),
          List.take_of_length_le (by omega)] at h1
        have hlast : pre.getLast? = some 0 := by
          rw [← h1, List.getLast?_replicate, if_neg hne]
        exact (hpre 0 hlast) rfl
      subst ha
      have hpre_nil : pre = [] := List.length_eq_zero.mp hlen
      subst hpre_nil
      rw [List.nil_append] at heq
      left
      refine ⟨rfl, ?_⟩
      by_contra hlj
      rcases Nat.lt_or_ge l j with hlt | hge
      · have h1 := congrArg (fun t => List.getD t l 1) heq
        simp only at h1
        rw [getD_rep_app, getD_rep_app, if_pos hlt, if_neg (by omega),
          Nat.sub_self] at h1
        cases post with
        | nil => simp at h1
        | cons ph pt =>
          have hph := hpost ph rfl
          simp only [List.getD_cons_zero] at h1
          exact hph h1.symm
      · have hgt : j < l := by omega
        have h1 := congrArg (fun t => List.getD t j 1) heq
        simp only at h1
        rw [getD_rep_app, getD_rep_app, if_neg (by omega), if_pos hgt,
          Nat.sub_self] at h1
        exact hrest h1
    · push_neg at hcase
      have hjpre : j ≤ pre.length := by omega
      have htake : pre.take j = List.replicate j 0 := by
        have h1 := congrArg (List.take j) heq
        rw [List.take_append_of_le_length (by simp),
          take_rep (by omega),
          List.take_append_of_le_length hjpre] at h1
        exact h1.symm
      have hanej : a ≠ j := by
        intro haj
        have hpe : pre = List.replicate j 0 := by
          rw [← htake, List.take_of_length_le (by omega)]
        have hlast : pre.getLast? = some 0 := by
          rw [hpe, List.getLast?_replicate, if_neg (by omega)]
        exact (hpre 0 hlast) rfl
      have hdrop : rest = pre.drop j ++ (List.replicate l 0 ++ post) := by
        have h1 := congrArg (List.drop j) heq
        rw [List.drop_append_of_le_length (by simp),
          List.drop_append_of_le_length hjpre,
          drop_rep_self, List.nil_append] at h1
        exact h1
      refine Or.inr ⟨a - j, by omega, hl, pre.drop j, post, hdrop,
        by simp only [List.length_drop]; omega, ?_, hpost⟩
      intro x hx
      refine hpre x ?_
      conv_lhs => rw [← List.take_append_drop j pre]
      rw [List.getLast?_append, hx]
      rfl
  · rintro (⟨rfl, rfl⟩ | ⟨a', rfl, hl, pre', post', heq, hlen, hpre, hpost⟩)
    · refine ⟨by omega, [], rest, by rw [List.nil_append], rfl, by simp, ?_⟩
      intro x hx
      cases rest with
      | nil => simp at hx
      | cons rh rt =>
        simp only [List.head?_cons, Option.some.injEq] at hx
        subst hx
        simpa using hrest
    · have hpre_ne : pre' ≠ [] := by
        intro hnil
        subst hnil
        simp only [List.nil_append] at heq
        apply hrest
        rw [heq, getD_rep_app, if_pos (by omega)]
      refine ⟨hl, List.replicate j 0 ++ pre', post', ?_,
        by simp [hlen], ?_, hpost⟩
      · rw [List.append_assoc, heq]
      · intro x hx
        rw [List.getLast?_append] at hx
        cases hplast : pre'.getLast? with
        | none => exact absurd (List.getLast?_eq_none_iff.mp hplast) hpre_ne
        | some y =>
          rw [hplast] at hx
          have hx' : some y = some x := hx
          injection hx' with hyx
          exact hyx ▸ hpre y hplast

theorem feGo_mem :
    ∀ n (bm : List Nat) (i : Nat), bm.length ≤ n → ∀ s l : Nat,
      ((s, l) ∈ feGo bm i ↔ ∃ a, s = i + 2 + a ∧ isMaxZeroRun bm a l) := by
  intro n
  induction n with
  | zero =>
    intro bm i hlen s l
    have hbm : bm = [] := by
      cases bm with
      | nil => rfl
      | cons b r => simp at hlen
    subst hbm
    rw [feGo_nil]
    constructor
    · intro h; simp at h
    · rintro ⟨a, -, h⟩; exact absurd h (mzr_nil a l)
  | succ n ih =>
    intro bm i hlen s l
    cases bm with
    | nil =>
      rw [feGo_nil]
      constructor
      · intro h; simp at h
      · rintro ⟨a, -, h⟩; exact absurd h (mzr_nil a l)
    | cons b r =>
      by_cases hb : b = 0
      · subst hb
        rw [feGo_zero]
        have hdec := lz_decomp ((0 : Nat) :: r)
        have hj1 : 1 ≤ lzCount ((0 : Nat) :: r) := by simp [lzCount]
        have hjle := lzCount_le ((0 : Nat) :: r)
        have hrlen : (List.drop (lzCount ((0 : Nat) :: r))
            ((0 : Nat) :: r)).length ≤ n := by
          simp only [List.length_drop, List.length_cons]
          simp only [List.length_cons] at hlen
          omega
        have IH := ih _ (i + lzCount ((0 : Nat) :: r)) hrlen s l
        set J := lzCount ((0 : Nat) :: r) with hJ
        constructor
        · intro hmem
          rcases List.mem_cons.mp hmem with heq | hmem'
          · rw [Prod.mk.injEq] at heq
            obtain ⟨rfl, rfl⟩ := heq
            refine ⟨0, by omega, ?_⟩
            rw [hdec.1]
            exact (mzr_decomp _ hj1 hdec.2 0 _).mpr (Or.inl ⟨rfl, rfl⟩)
          · obtain ⟨a', rfl, hmzr⟩ := IH.mp hmem'
            refine ⟨J + a', by omega, ?_⟩
            rw [hdec.1]
            exact (mzr_decomp _ hj1 hdec.2 _ l).mpr (Or.inr ⟨a', rfl, hmzr⟩)
        · rintro ⟨a, rfl, hmzr⟩
          rw [hdec.1] at hmzr
          rcases (mzr_decomp _ hj1 hdec.2 a l).mp hmzr with
            ⟨rfl, rfl⟩ | ⟨a', rfl, hmzr'⟩
          · exact List.mem_cons.mpr (Or.inl rfl)
          · exact List.mem_cons.mpr
              (Or.inr (IH.mpr ⟨a', by omega, hmzr'⟩))
      · rw [feGo_pos _ _ _ hb]
        have IH := ih r (i + 1)
          (by simp only [List.length_cons] at hlen; omega) s l
        rw [IH]
        constructor
        · rintro ⟨a', rfl, hmzr⟩
          exact ⟨a' + 1, by omega, (mzr_cons r hb (a' + 1)).mpr
            ⟨a', rfl, hmzr⟩⟩
        · rintro ⟨a, rfl, hmzr⟩
          obtain ⟨a', rfl, hmzr'⟩ := (mzr_cons r hb _).mp hmzr
          exact ⟨a', by omega, hmzr'⟩


theorem foldl_preserve {α β : Type} (P : β → Prop) (f : β → α → β)
    (hf : ∀ b a, P b → P (f b a)) :
    ∀ (l : List α) (b : β), P b → P (l.foldl f b) := by
  intro l
  induction l with
  | nil => intro b h; exact h
  | cons x xs ih =>
    intro b h
    rw [List.foldl_cons]
    exact ih _ (hf b x h)

theorem build_inv (bs : BootSector) (records : List FileRecord) :
    (build_allocation_bitmap bs records).length = (total_clusters bs).toNat ∧
      ∀ x ∈ build_allocation_bitmap bs records, x = 0 ∨ x = 1 := by
  unfold build_allocation_bitmap
  apply foldl_preserve
    (fun bm : List Nat => bm.length = (total_clusters bs).toNat ∧
      ∀ x ∈ bm, x = 0 ∨ x = 1)
  · intro bm r h
    apply foldl_preserve
      (fun bm : List Nat => bm.length = (total_clusters bs).toNat ∧
        ∀ x ∈ bm, x = 0 ∨ x = 1)
    · intro bm' c h'
      split_ifs with hc
      · exact ⟨by simp [h'.1], fun x hx =>
          (List.mem_or_eq_of_mem_set hx).elim (h'.2 x) Or.inr⟩
      · exact h'
    · exact h
  · exact ⟨by simp, fun x hx => Or.inl (List.eq_of_mem_replicate hx)⟩

/-- C9: for any geometry with a positive cluster size and at least as
many sectors as the reserved and FAT areas occupy, and any list of
FileRecords: the sum of the free-run lengths plus the number of one
bits of the allocation bitmap equals total_clusters, and the free runs
returned by free_extents are exactly the maximal runs of zero bits of
the bitmap, each reported with start a + 2 and its length, for the
maximal zero region starting at bitmap index a. -/
theorem c9_free_run_partition (bs : BootSector) (records : List FileRecord)
    (hspc : 0 < bs.sectors_per_cluster)
    (hgeom : (bs.reserved_sectors : Int) + (bs.num_fats : Int) *
      (bs.sectors_per_fat : Int) ≤ (bs.total_sectors : Int)) :
    ((extentLengthSum (free_extents (build_allocation_bitmap bs records)) : Int) +
        ((build_allocation_bitmap bs records).count 1 : Int) =
      total_clusters bs) ∧
    (∀ s l : Nat,
      (s, l) ∈ free_extents (build_allocation_bitmap bs records) ↔
        ∃ a, s = a + 2 ∧
          isMaxZeroRun (build_allocation_bitmap bs records) a l) := by
  have hb := build_inv bs records
  have hT : 0 ≤ total_clusters bs := by
    unfold total_clusters
    exact Int.fdiv_nonneg (by omega) (by positivity)
  have hfe : free_extents (build_allocation_bitmap bs records) =
      feGo (build_allocation_bitmap bs records) 0 := rfl
  constructor
  · have h2 : extentLengthSum
        (feGo (build_allocation_bitmap bs records) 0) +
        (build_allocation_bitmap bs records).count 1 =
        (total_clusters bs).toNat := by
      rw [← hb.1]
      exact feGo_partition _ _ 0 le_rfl hb.2
    rw [hfe, ← Int.toNat_of_nonneg hT, ← h2]
    push_cast
    ring
  · intro s l
    rw [hfe, feGo_mem (build_allocation_bitmap bs records).length _ 0
      le_rfl s l]
    constructor
    · rintro ⟨a, rfl, h⟩
      exact ⟨a, by omega, h⟩
    · rintro ⟨a, rfl, h⟩
      exact ⟨a, by omega, h⟩

/-- Witness for c9_free_run_partition at the spec scenario 6 geometry
(total_clusters = 10) with one record occupying clusters 2, 3 and 7. -/
theorem c9_free_run_partition_witness :
    ((extentLengthSum (free_extents (build_allocation_bitmap c9bs [c9rec])) : Int) +
        ((build_allocation_bitmap c9bs [c9rec]).count 1 : Int) =
      total_clusters c9bs) ∧
    (∀ s l : Nat,
      (s, l) ∈ free_extents (build_allocation_bitmap c9bs [c9rec]) ↔
        ∃ a, s = a + 2 ∧
          isMaxZeroRun (build_allocation_bitmap c9bs [c9rec]) a l) :=
  c9_free_run_partition c9bs [c9rec] (by norm_num [c9bs])
    (by norm_num [c9bs])

theorem walkEntries_none (recur : Nat → String → Option (List FileRecord))
    (env : WalkEnv) (e : DirectoryEntry)
    (hskip : walkSkips e = false) (hdir : e.is_directory = true)
    (hc2 : 2 ≤ e.first_cluster)
    (hrec : ∀ pfx', recur e.first_cluster pfx' = none) :
    ∀ (es : List DirectoryEntry) (pfx : String), e ∈ es →
      walkEntries recur env es pfx = none := by
  intro es
  induction es with
  | nil => intro pfx he; cases he
  | cons f es ih =>
    intro pfx he
    rcases List.mem_cons.mp he with rfl | hmem
    · rw [walkEntries, if_neg (by simp [hskip]), if_pos ⟨hdir, hc2⟩, hrec]
    · rw [walkEntries]
      by_cases hs : walkSkips f
      · rw [if_pos (by simp [hs])]
        exact ih pfx hmem
      · rw [if_neg (by simp [hs])]
        by_cases hd : f.is_directory = true ∧ 2 ≤ f.first_cluster
        · rw [if_pos hd]
          cases hr : recur f.first_cluster
              (pyRstripSlash (pfx ++ entryStem f) ++ "/") with
          | none => rfl
          | some sub => rw [ih pfx hmem]
        · rw [if_neg hd, ih pfx hmem]

theorem walkDir_self_loop (env : WalkEnv) (c : Nat) (e : DirectoryEntry)
    (he : e ∈ env.entriesAt c) (hskip : walkSkips e = false)
    (hdir : e.is_directory = true) (hfc : e.first_cluster = c)
    (hc2 : 2 ≤ c) :
    ∀ fuel pfx, walkDir fuel env c pfx = none := by
  intro fuel
  induction fuel with
  | zero => intro pfx; rfl
  | succ n ih =>
    intro pfx
    have hnone : walkEntries (walkDir n env) env (env.entriesAt c) pfx =
        none :=
      walkEntries_none (walkDir n env) env e hskip hdir
        (by rw [hfc]; exact hc2)
        (fun pfx' => by rw [hfc]; exact ih pfx') (env.entriesAt c) pfx he
    rw [walkDir, hnone]

/-- C4 counterexample: on the image whose root directory contains a
subdirectory entry whose first_cluster is the root cluster itself (a
loop a corrupted FAT can form), walk never terminates: the fuelled
embedding returns none for every amount of fuel, refuting the claim
that a visited-set guard makes walk terminate on directory loops. -/
theorem c4_counterexample : walkDiverges envC4 2 "/" :=
  fun fuel =>
    walkDir_self_loop envC4 2 c4entry (by decide) (by decide) (by decide)
      (by decide) (by norm_num) fuel "/"

theorem walkEntries_some (recur : Nat → String → Option (List FileRecord))
    (env : WalkEnv) :
    ∀ (es : List DirectoryEntry) (pfx : String),
      (∀ e ∈ es, walkDescends e →
        ∀ pfx', ∃ out, recur e.first_cluster pfx' = some out) →
      ∃ out, walkEntries recur env es pfx = some out := by
  intro es
  induction es with
  | nil => exact fun pfx _ => ⟨[], rfl⟩
  | cons f es ih =>
    intro pfx h
    have ihtail := ih pfx (fun e he hd => h e (List.mem_cons_of_mem _ he) hd)
    obtain ⟨rest, hrest⟩ := ihtail
    by_cases hs : walkSkips f
    · exact ⟨rest, by rw [walkEntries, if_pos (by simp [hs])]; exact hrest⟩
    · by_cases hd : f.is_directory = true ∧ 2 ≤ f.first_cluster
      · obtain ⟨sub, hsub⟩ := h f (List.mem_cons_self _ _)
          ⟨by simpa using hs, hd.1, hd.2⟩
          (pyRstripSlash (pfx ++ entryStem f) ++ "/")
        refine ⟨entryRec env pfx f :: (sub ++ rest), ?_⟩
        rw [walkEntries, if_neg (by simp [hs]), if_pos hd, hsub, hrest]
      · refine ⟨entryRec env pfx f :: rest, ?_⟩
        rw [walkEntries, if_neg (by simp [hs]), if_neg hd, hrest]

/-- C4 amended: _walk_dir keeps no set of visited starting clusters.
It terminates exactly when the directory reference structure below the
start is of bounded depth: with the tree below c of depth under the
fuel, the walk completes; and whenever some directory cluster c
contains a processed subdirectory entry whose first_cluster is c
itself, the walk of c never completes, whatever the fuel. -/
theorem c4_no_visited_set_termination :
    (∀ (env : WalkEnv) (fuel c : Nat) (pfx : String),
      TreeBounded env fuel c →
        ∃ out, walkDir fuel env c pfx = some out) ∧
    (∀ (env : WalkEnv) (fuel c : Nat) (pfx : String) (e : DirectoryEntry),
      e ∈ env.entriesAt c → walkDescends e → e.first_cluster = c →
        walkDir fuel env c pfx = none) := by
  constructor
  · intro env fuel
    induction fuel with
    | zero => intro c pfx h; cases h
    | succ n ih =>
      intro c pfx h
      obtain ⟨body, hbody⟩ := walkEntries_some (walkDir n env) env
        (env.entriesAt c) pfx
        (fun e he hd pfx' => ih e.first_cluster pfx' (h e he hd))
      exact ⟨recordForDir env (pyRstripSlash pfx) c :: body,
        by rw [walkDir, hbody]⟩
  · intro env fuel c pfx e he hd hfc
    exact walkDir_self_loop env c e he hd.1 hd.2.1 hfc (hfc ▸ hd.2.2)
      fuel pfx

/-- Witness for c4_no_visited_set_termination: the walk completes on
the image with an empty root directory, and diverges on the
self-looping image. -/
theorem c4_no_visited_set_termination_witness :
    (∃ out, walkDir 1 envEmpty 2 "/" = some out) ∧
      walkDir 5 envC4 2 "/" = none := by
  constructor
  · refine c4_no_visited_set_termination.1 envEmpty 1 2 "/" ?_
    intro e he
    simp [envEmpty] at he
  · exact c4_no_visited_set_termination.2 envC4 5 2 "/" c4entry
      (by decide) ⟨by decide, by decide, by decide⟩ (by decide)

theorem stem_ne_empty (e : DirectoryEntry) (h : walkSkips e = false) :
    entryStem e ≠ "" := by
  have hname : pyStrip e.name ≠ "" := by
    intro hx
    unfold walkSkips at h
    rw [hx] at h
    simp at h
  unfold entryStem
  split_ifs with hfn
  · exact hname
  · exact hfn

theorem string_data_nil {s : String} (h : s.data = []) : s = "" := by
  cases s with
  | mk d =>
    simp only at h
    subst h
    rfl

theorem getLast_append_stem (pfx stem : String) (h : stem ≠ "") :
    (pfx ++ stem).data.getLast? = stem.data.getLast? := by
  rw [String.data_append, List.getLast?_append]
  cases hl : stem.data.getLast? with
  | none =>
    exact absurd (string_data_nil (List.getLast?_eq_none_iff.mp hl)) h
  | some c => rfl

theorem append_ne_empty (pfx stem : String) (h : stem ≠ "") :
    pfx ++ stem ≠ "" := by
  intro hx
  apply h
  apply string_data_nil
  have hd := congrArg String.data hx
  rw [String.data_append] at hd
  exact (List.append_eq_nil.mp hd).2

theorem rstripSlash_no_slash (s : String) (h : ¬ endsSlash s) :
    pyRstripSlash s = s := by
  apply String.ext
  show (s.data.reverse.dropWhile (fun c => c == '/')).reverse = s.data
  cases hrev : s.data.reverse with
  | nil =>
    simp only [List.dropWhile_nil, List.reverse_nil]
    have h2 : s.data = [] := by simpa using congrArg List.reverse hrev
    exact h2.symm
  | cons c t =>
    have hc : c ≠ '/' := by
      intro hcc
      apply h
      show s.data.getLast? = some '/'
      rw [← List.head?_reverse, hrev, hcc]
      rfl
    rw [List.dropWhile_cons, if_neg (by simp [hc])]
    have h2 : s.data = (c :: t).reverse := by
      simpa using congrArg List.reverse hrev
    exact h2.symm

theorem rstripSlash_append_slash (s : String) :
    pyRstripSlash (s ++ "/") = pyRstripSlash s := by
  apply String.ext
  show ((s ++ "/").data.reverse.dropWhile (fun c => c == '/')).reverse =
    (s.data.reverse.dropWhile (fun c => c == '/')).reverse
  rw [String.data_append,
    show ("/" : String).data = ['/'] from rfl,
    List.reverse_append]
  rw [show (['/'] : List Char).reverse = ['/'] from rfl]
  rw [show (['/'] : List Char) ++ s.data.reverse =
    '/' :: s.data.reverse from rfl]
  rw [List.dropWhile_cons, if_pos (by simp)]

theorem dropWhile_head_not {α : Type} (p : α → Bool) (l : List α) (x : α)
    (h : (l.dropWhile p).head? = some x) : p x = false := by
  induction l with
  | nil => simp at h
  | cons c t ih =>
    rw [List.dropWhile_cons] at h
    by_cases hp : p c
    · rw [if_pos (by simpa using hp)] at h
      exact ih h
    · rw [if_neg (by simpa using hp)] at h
      simp at h
      subst h
      simpa using hp

theorem rstripSlash_not_ends (s : String) : ¬ endsSlash (pyRstripSlash s) := by
  intro h
  have h2 : (pyRstripSlash s).data.getLast? = some '/' := h
  rw [show (pyRstripSlash s).data =
    (s.data.reverse.dropWhile (fun c => c == '/')).reverse from rfl,
    List.getLast?_reverse] at h2
  have := dropWhile_head_not _ _ _ h2
  simp at this

theorem path_ne_root (pfx stem : String) (hne : stem ≠ "")
    (hns : ¬ endsSlash stem) : pfx ++ stem ≠ "/" := by
  intro h
  apply hns
  show stem.data.getLast? = some '/'
  rw [← getLast_append_stem pfx stem hne, h]
  rfl

theorem walkDir_head (fuel : Nat) (env : WalkEnv) (c : Nat) (pfx : String)
    (sub : List FileRecord) (h : walkDir fuel env c pfx = some sub) :
    ∃ t, sub = recordForDir env (pyRstripSlash pfx) c :: t := by
  cases fuel with
  | zero => simp [walkDir] at h
  | succ n =>
    rw [walkDir] at h
    cases hb : walkEntries (walkDir n env) env (env.entriesAt c) pfx with
    | none => rw [hb] at h; simp at h
    | some body =>
      rw [hb] at h
      simp only [Option.some.injEq] at h
      exact ⟨body, h.symm⟩

theorem walkEntries_pair (recur : Nat → String → Option (List FileRecord))
    (env : WalkEnv) (e : DirectoryEntry)
    (hsk : walkSkips e = false) (hdir : e.is_directory = true)
    (hfc : 2 ≤ e.first_cluster)
    (hhead : ∀ pfx' sub, recur e.first_cluster pfx' = some sub →
      ∃ t, sub = recordForDir env (pyRstripSlash pfx') e.first_cluster :: t) :
    ∀ (es : List DirectoryEntry) (pfx : String) (out : List FileRecord),
      e ∈ es → walkEntries recur env es pfx = some out →
      ∃ l1 l2, out = l1 ++ entryRec env pfx e ::
        recordForDir env
          (pyRstripSlash (pyRstripSlash (pfx ++ entryStem e) ++ "/"))
          e.first_cluster :: l2 := by
  intro es
  induction es with
  | nil => intro pfx out he; cases he
  | cons f es ih =>
    intro pfx out he hw
    rcases List.mem_cons.mp he with rfl | hmem
    · rw [walkEntries, if_neg (by simp [hsk]), if_pos ⟨hdir, hfc⟩] at hw
      cases hr : recur e.first_cluster
          (pyRstripSlash (pfx ++ entryStem e) ++ "/") with
      | none => rw [hr] at hw; simp at hw
      | some sub =>
        rw [hr] at hw
        cases hrest : walkEntries recur env es pfx with
        | none => rw [hrest] at hw; simp at hw
        | some rest =>
          rw [hrest] at hw
          simp only [Option.some.injEq] at hw
          obtain ⟨t, rfl⟩ := hhead _ _ hr
          exact ⟨[], t ++ rest, by rw [← hw]; simp⟩
    · rw [walkEntries] at hw
      by_cases hs : walkSkips f
      · rw [if_pos (by simp [hs])] at hw
        exact ih pfx out hmem hw
      · rw [if_neg (by simp [hs])] at hw
        by_cases hd : f.is_directory = true ∧ 2 ≤ f.first_cluster
        · rw [if_pos hd] at hw
          cases hr : recur f.first_cluster
              (pyRstripSlash (pfx ++ entryStem f) ++ "/") with
          | none => rw [hr] at hw; simp at hw
          | some sub =>
            rw [hr] at hw
            cases hrest : walkEntries recur env es pfx with
            | none => rw [hrest] at hw; simp at hw
            | some rest =>
              rw [hrest] at hw
              simp only [Option.some.injEq] at hw
              obtain ⟨l1, l2, hp⟩ := ih pfx rest hmem hrest
              refine ⟨entryRec env pfx f :: (sub ++ l1), l2, ?_⟩
              rw [← hw, hp]
              simp
        · rw [if_neg hd] at hw
          cases hrest : walkEntries recur env es pfx with
          | none => rw [hrest] at hw; simp at hw
          | some rest =>
            rw [hrest] at hw
            simp only [Option.some.injEq] at hw
            obtain ⟨l1, l2, hp⟩ := ih pfx rest hmem hrest
            refine ⟨entryRec env pfx f :: l1, l2, ?_⟩
            rw [← hw, hp]
            simp

theorem walkEntries_sub (recur : Nat → String → Option (List FileRecord))
    (env : WalkEnv) (e : DirectoryEntry)
    (hsk : walkSkips e = false) (hdir : e.is_directory = true)
    (hfc : 2 ≤ e.first_cluster) :
    ∀ (es : List DirectoryEntry) (pfx : String) (out : List FileRecord),
      e ∈ es → walkEntries recur env es pfx = some out →
      ∃ sub l1 l2, recur e.first_cluster
          (pyRstripSlash (pfx ++ entryStem e) ++ "/") = some sub ∧
        out = l1 ++ sub ++ l2 := by
  intro es
  induction es with
  | nil => intro pfx out he; cases he
  | cons f es ih =>
    intro pfx out he hw
    rcases List.mem_cons.mp he with rfl | hmem
    · rw [walkEntries, if_neg (by simp [hsk]), if_pos ⟨hdir, hfc⟩] at hw
      cases hr : recur e.first_cluster
          (pyRstripSlash (pfx ++ entryStem e) ++ "/") with
      | none => rw [hr] at hw; simp at hw
      | some sub =>
        rw [hr] at hw
        cases hrest : walkEntries recur env es pfx with
        | none => rw [hrest] at hw; simp at hw
        | some rest =>
          rw [hrest] at hw
          simp only [Option.some.injEq] at hw
          exact ⟨sub, [entryRec env pfx e], rest, rfl, by rw [← hw]; simp⟩
    · rw [walkEntries] at hw
      by_cases hs : walkSkips f
      · rw [if_pos (by simp [hs])] at hw
        exact ih pfx out hmem hw
      · rw [if_neg (by simp [hs])] at hw
        by_cases hd : f.is_directory = true ∧ 2 ≤ f.first_cluster
        · rw [if_pos hd] at hw
          cases hr : recur f.first_cluster
              (pyRstripSlash (pfx ++ entryStem f) ++ "/") with
          | none => rw [hr] at hw; simp at hw
          | some sub0 =>
            rw [hr] at hw
            cases hrest : walkEntries recur env es pfx with
            | none => rw [hrest] at hw; simp at hw
            | some rest =>
              rw [hrest] at hw
              simp only [Option.some.injEq] at hw
              obtain ⟨sub, l1, l2, hrr, hp⟩ := ih pfx rest hmem hrest
              refine ⟨sub, entryRec env pfx f :: (sub0 ++ l1), l2, hrr, ?_⟩
              rw [← hw, hp]
              simp
        · rw [if_neg hd] at hw
          cases hrest : walkEntries recur env es pfx with
          | none => rw [hrest] at hw; simp at hw
          | some rest =>
            rw [hrest] at hw
            simp only [Option.some.injEq] at hw
            obtain ⟨sub, l1, l2, hrr, hp⟩ := ih pfx rest hmem hrest
            refine ⟨sub, entryRec env pfx f :: l1, l2, hrr, ?_⟩
            rw [← hw, hp]
            simp

theorem entryRec_path_not_root (env : WalkEnv) (pfx : String)
    (e : DirectoryEntry) (hsk : walkSkips e = false)
    (hns : ¬ endsSlash (entryStem e)) :
    ((entryRec env pfx e).path == "/") = false := by
  have h := path_ne_root pfx (entryStem e) (stem_ne_empty e hsk) hns
  simp only [entryRec]
  rw [beq_eq_false_iff_ne]
  exact h

theorem recordForDir_path_not_root (env : WalkEnv) (p : String) (c : Nat)
    (hne : p ≠ "") (hns : ¬ endsSlash p) :
    ((recordForDir env p c).path == "/") = false := by
  simp only [recordForDir]
  rw [if_neg hne, beq_eq_false_iff_ne]
  intro h
  apply hns
  show p.data.getLast? = some '/'
  rw [h]
  rfl

theorem stem_not_ends_of_path {pfx : String} (e : DirectoryEntry)
    (hsk : walkSkips e = false)
    (hns : ¬ endsSlash (entryStem e)) :
    ¬ endsSlash (pfx ++ entryStem e) := by
  intro hx
  apply hns
  show (entryStem e).data.getLast? = some '/'
  have h2 : (pfx ++ entryStem e).data.getLast? = some '/' := hx
  rwa [getLast_append_stem pfx _ (stem_ne_empty e hsk)] at h2

theorem walkEntries_count0 (env : WalkEnv) (n : Nat)
    (hsub : ∀ (c' : Nat) (pfx' : String) (out' : List FileRecord),
      walkDir n env c' pfx' = some out' → pyRstripSlash pfx' ≠ "" →
      (out'.filter (fun r => r.path == "/")).length = 0) :
    ∀ (es : List DirectoryEntry) (pfx : String) (out : List FileRecord),
      (∀ e ∈ es, walkSkips e = false → ¬ endsSlash (entryStem e)) →
      walkEntries (walkDir n env) env es pfx = some out →
      (out.filter (fun r => r.path == "/")).length = 0 := by
  intro es
  induction es with
  | nil =>
    intro pfx out _ hw
    simp only [walkEntries, Option.some.injEq] at hw
    rw [← hw]
    rfl
  | cons f es ih =>
    intro pfx out hno hw
    have hnotail := fun e he => hno e (List.mem_cons_of_mem _ he)
    rw [walkEntries] at hw
    by_cases hs : walkSkips f
    · rw [if_pos (by simp [hs])] at hw
      exact ih pfx out hnotail hw
    · have hsf : walkSkips f = false := by simpa using hs
      have hnf := hno f (List.mem_cons_self _ _) hsf
      by_cases hd : f.is_directory = true ∧ 2 ≤ f.first_cluster
      · rw [if_neg (by simp [hs]), if_pos hd] at hw
        cases hr : walkDir n env f.first_cluster
            (pyRstripSlash (pfx ++ entryStem f) ++ "/") with
        | none => rw [hr] at hw; simp at hw
        | some sub =>
          rw [hr] at hw
          cases hrest : walkEntries (walkDir n env) env es pfx with
          | none => rw [hrest] at hw; simp at hw
          | some rest =>
            rw [hrest] at hw
            simp only [Option.some.injEq] at hw
            have hpfx2 : pyRstripSlash
                (pyRstripSlash (pfx ++ entryStem f) ++ "/") ≠ "" := by
              rw [rstripSlash_append_slash,
                rstripSlash_no_slash _ (stem_not_ends_of_path f hsf hnf),
                rstripSlash_no_slash _ (stem_not_ends_of_path f hsf hnf)]
              exact append_ne_empty pfx _ (stem_ne_empty f hsf)
            have hsubc := hsub _ _ _ hr hpfx2
            have hrestc := ih pfx rest hnotail hrest
            rw [← hw, List.filter_cons_of_neg
              (by rw [entryRec_path_not_root env pfx f hsf hnf]; simp),
              List.filter_append, List.length_append, hsubc, hrestc]
      · rw [if_neg (by simp [hs]), if_neg hd] at hw
        cases hrest : walkEntries (walkDir n env) env es pfx with
        | none => rw [hrest] at hw; simp at hw
        | some rest =>
          rw [hrest] at hw
          simp only [Option.some.injEq] at hw
          have hrestc := ih pfx rest hnotail hrest
          rw [← hw, List.filter_cons_of_neg
            (by rw [entryRec_path_not_root env pfx f hsf hnf]; simp),
            hrestc]

theorem walk_count0 (env : WalkEnv)
    (hno : ∀ (c : Nat) (e : DirectoryEntry), e ∈ env.entriesAt c →
      walkSkips e = false → ¬ endsSlash (entryStem e)) :
    ∀ (fuel c : Nat) (pfx : String) (out : List FileRecord),
      walkDir fuel env c pfx = some out → pyRstripSlash pfx ≠ "" →
      (out.filter (fun r => r.path == "/")).length = 0 := by
  intro fuel
  induction fuel with
  | zero => intro c pfx out h; simp [walkDir] at h
  | succ n ih =>
    intro c pfx out h hpfx
    rw [walkDir] at h
    cases hb : walkEntries (walkDir n env) env (env.entriesAt c) pfx with
    | none => rw [hb] at h; simp at h
    | some body =>
      rw [hb] at h
      simp only [Option.some.injEq] at h
      have hbody := walkEntries_count0 env n ih (env.entriesAt c) pfx body
        (fun e he => hno c e he) hb
      rw [← h, List.filter_cons_of_neg
        (by rw [recordForDir_path_not_root env _ c hpfx
          (rstripSlash_not_ends pfx)]; simp),
        hbody]

/-- C10 amended: whenever _walk_dir processes a subdirectory entry
(is_directory, first_cluster at least 2) whose stem does not end in the
character '/', its output contains the loop record (size_bytes the
on-disk file_size, is_directory true) immediately followed by the
record _record_for_dir builds for the same path (size_bytes 0,
is_directory true), so the subdirectory appears twice, under the same
path, in the records and hence twice in the report's dirs list; the
output of each subdirectory's recursive walk is a contiguous segment of
its parent's output; and a completed walk contains exactly one record
with path "/" (the root), provided no processed entry's stem ends in
'/'.  (With a stem ending in '/', the two records get different paths:
the claim fails as stated.) -/
theorem c10_subdirectory_double_records :
    (∀ (env : WalkEnv) (fuel c : Nat) (pfx : String)
        (out : List FileRecord) (e : DirectoryEntry),
      walkDir (fuel + 1) env c pfx = some out →
      e ∈ env.entriesAt c → walkSkips e = false →
      e.is_directory = true → 2 ≤ e.first_cluster →
      ¬ endsSlash (entryStem e) →
      ∃ l1 l2, out = l1 ++ entryRec env pfx e ::
          recordForDir env (pfx ++ entryStem e) e.first_cluster :: l2 ∧
        (entryRec env pfx e).path = pfx ++ entryStem e ∧
        (entryRec env pfx e).size_bytes = e.file_size ∧
        (entryRec env pfx e).is_directory = true ∧
        (recordForDir env (pfx ++ entryStem e) e.first_cluster).path =
          pfx ++ entryStem e ∧
        (recordForDir env (pfx ++ entryStem e) e.first_cluster).size_bytes
          = 0 ∧
        (recordForDir env (pfx ++ entryStem e)
          e.first_cluster).is_directory = true) ∧
    (∀ (env : WalkEnv) (fuel c : Nat) (pfx : String)
        (out : List FileRecord) (e : DirectoryEntry),
      walkDir (fuel + 1) env c pfx = some out →
      e ∈ env.entriesAt c → walkSkips e = false →
      e.is_directory = true → 2 ≤ e.first_cluster →
      ∃ sub l1 l2, walkDir fuel env e.first_cluster
          (pyRstripSlash (pfx ++ entryStem e) ++ "/") = some sub ∧
        out = l1 ++ sub ++ l2) ∧
    (∀ (env : WalkEnv) (fuel root : Nat) (out : List FileRecord),
      (∀ (c : Nat) (e : DirectoryEntry), e ∈ env.entriesAt c →
        walkSkips e = false → ¬ endsSlash (entryStem e)) →
      walk fuel env root = some out →
      (out.filter (fun r => r.path == "/")).length = 1) := by
  refine ⟨?_, ?_, ?_⟩
  · intro env fuel c pfx out e hsome he hsk hdir hfc hns
    have hstem := stem_ne_empty e hsk
    have hpath : pyRstripSlash (pyRstripSlash (pfx ++ entryStem e) ++ "/") =
        pfx ++ entryStem e := by
      rw [rstripSlash_append_slash,
        rstripSlash_no_slash _ (stem_not_ends_of_path e hsk hns),
        rstripSlash_no_slash _ (stem_not_ends_of_path e hsk hns)]
    rw [walkDir] at hsome
    cases hb : walkEntries (walkDir fuel env) env (env.entriesAt c) pfx with
    | none => rw [hb] at hsome; simp at hsome
    | some body =>
      rw [hb] at hsome
      simp only [Option.some.injEq] at hsome
      obtain ⟨l1, l2, hp⟩ := walkEntries_pair (walkDir fuel env) env e hsk
        hdir hfc
        (fun pfx' sub h => walkDir_head fuel env e.first_cluster pfx' sub h)
        (env.entriesAt c) pfx body he hb
      rw [hpath] at hp
      refine ⟨recordForDir env (pyRstripSlash pfx) c :: l1, l2, ?_, rfl,
        rfl, hdir, ?_, rfl, rfl⟩
      · rw [← hsome, hp, List.cons_append]
      · simp only [recordForDir]
        rw [if_neg (append_ne_empty pfx _ hstem)]
  · intro env fuel c pfx out e hsome he hsk hdir hfc
    rw [walkDir] at hsome
    cases hb : walkEntries (walkDir fuel env) env (env.entriesAt c) pfx with
    | none => rw [hb] at hsome; simp at hsome
    | some body =>
      rw [hb] at hsome
      simp only [Option.some.injEq] at hsome
      obtain ⟨sub, l1, l2, hr, hp⟩ := walkEntries_sub (walkDir fuel env) env
        e hsk hdir hfc (env.entriesAt c) pfx body he hb
      refine ⟨sub, recordForDir env (pyRstripSlash pfx) c :: l1, l2, hr, ?_⟩
      rw [← hsome, hp]
      simp
  · intro env fuel root out hno hw
    cases fuel with
    | zero => simp [walk, walkDir] at hw
    | succ n =>
      unfold walk at hw
      rw [walkDir] at hw
      cases hb : walkEntries (walkDir n env) env (env.entriesAt root) "/" with
      | none => rw [hb] at hw; simp at hw
      | some body =>
        rw [hb] at hw
        simp only [Option.some.injEq] at hw
        have hbody := walkEntries_count0 env n (walk_count0 env hno n)
          (env.entriesAt root) "/" body (fun e he => hno root e he) hb
        have hroot : ((recordForDir env (pyRstripSlash "/") root).path ==
            "/") = true := by
          have h0 : pyRstripSlash "/" = "" := by decide
          rw [h0]
          simp [recordForDir]
        rw [← hw, List.filter_cons_of_pos (by rw [hroot]),
          List.length_cons, hbody]

/-- C10 counterexample: on the image whose root contains one
subdirectory entry with decoded name "A/", the walk completes and emits
three records with paths "/", "/A/" and "/A": the loop record and the
_record_for_dir record of the visited subdirectory have different
paths (the former keeps the trailing slash, the latter loses it to
rstrip("/")), so no two records of walk()'s output share a path,
refuting the claim that every visited subdirectory yields two records
with the same path. -/
theorem c10_counterexample :
    (walkDir 2 envC10 2 "/").isSome = true ∧
    ((walkDir 2 envC10 2 "/").getD []).map FileRecord.path =
      ["/", "/A/", "/A"] ∧
    (((walkDir 2 envC10 2 "/").getD []).map FileRecord.path).Nodup := by
  refine ⟨by decide, by decide, by decide⟩

/-- Witness for c10_subdirectory_double_records on the image with one
ordinary subdirectory entry named SUB. -/
theorem c10_subdirectory_double_records_witness :
    (∃ l1 l2, (walkDir 2 envC10w 2 "/").getD [] = l1 ++
        entryRec envC10w "/" c10good ::
        recordForDir envC10w ("/" ++ entryStem c10good)
          c10good.first_cluster :: l2 ∧
      (entryRec envC10w "/" c10good).path = "/" ++ entryStem c10good ∧
      (entryRec envC10w "/" c10good).size_bytes = c10good.file_size ∧
      (entryRec envC10w "/" c10good).is_directory = true ∧
      (recordForDir envC10w ("/" ++ entryStem c10good)
        c10good.first_cluster).path = "/" ++ entryStem c10good ∧
      (recordForDir envC10w ("/" ++ entryStem c10good)
        c10good.first_cluster).size_bytes = 0 ∧
      (recordForDir envC10w ("/" ++ entryStem c10good)
        c10good.first_cluster).is_directory = true) ∧
    (∃ sub l1 l2, walkDir 1 envC10w c10good.first_cluster
        (pyRstripSlash ("/" ++ entryStem c10good) ++ "/") = some sub ∧
      (walkDir 2 envC10w 2 "/").getD [] = l1 ++ sub ++ l2) ∧
    ((((walkDir 2 envC10w 2 "/").getD []).filter
      (fun r => r.path == "/")).length = 1) := by
  have hsome : walkDir 2 envC10w 2 "/" =
      some ((walkDir 2 envC10w 2 "/").getD []) := by decide
  have hno : ∀ (c : Nat) (e : DirectoryEntry), e ∈ envC10w.entriesAt c →
      walkSkips e = false → ¬ endsSlash (entryStem e) := by
    intro c e he hsk
    by_cases hc : c = 2
    · subst hc
      rw [show envC10w.entriesAt 2 = [c10good] from rfl] at he
      obtain rfl := List.mem_singleton.mp he
      decide
    · simp [envC10w, hc] at he
  refine ⟨c10_subdirectory_double_records.1 envC10w 1 2 "/" _ c10good
      hsome (by decide) (by decide) (by decide) (by decide) (by decide),
    c10_subdirectory_double_records.2.1 envC10w 1 2 "/" _ c10good
      hsome (by decide) (by decide) (by decide) (by decide),
    c10_subdirectory_double_records.2.2 envC10w 2 2 _ hno hsome⟩

end PyDefrag
